import Mathlib

/-!
Verification of the DAFT DAG execution engine (`src/lib/serializer.ts`,
class `DAGExecutor`, plus the data model of `src/lib/types.ts`).

Shallow embedding conventions:
* Working data values are JSON-like (`Value`): null, booleans, numbers,
  strings and objects (ordered string-keyed field lists, as JS objects).
  Arrays are not modelled; no claim under test mentions them.
* JS numbers are modelled as exact integers (`Int`).  The claims under
  test concern comparison and accumulation logic, which is independent
  of numeric granularity.
* The executor is asynchronous in the source, but every step awaits all
  of its dependencies before reading their data, steps are launched in
  topological order, and each step's working data is owned by a single
  runner; the embedding therefore runs the steps sequentially in the
  topological order (the source's completion-order bookkeeping
  coincides with this order in the deterministic model).
* Wall-clock time (`Date.now()`) is modelled as a constant clock 0, so
  measured durations are 0 and the elapsed time passed to the budget
  monitor during a run is 0.  `checkBudget` itself takes the elapsed
  time as an explicit argument, exactly as the source computes it.
* A rejected promise / thrown exception is modelled as `Except.error`.
* `ExecState` additionally carries ghost instrumentation (tool-call and
  predicate-call counters) and `StepRun` carries ghost observables
  (starting data, final working data, whether the catch path was
  taken); these fields are written by the embedding alongside the
  faithful state and are never read by the embedded code itself.
-/

/-- JSON-like working data (JS objects are ordered string-keyed maps). -/
inductive Value where
  | vnull : Value
  | vbool : Bool → Value
  | vnum : Int → Value
  | vstr : String → Value
  | vobj : List (String × Value) → Value

/-- `Usage` record of `types.ts`: running totals of tokens, cost, duration. -/
structure Usage where
  tokens : Int
  cost : Int
  duration : Int
deriving DecidableEq

/-- A tool's reported usage: `Partial<Usage>` in `types.ts` (every field optional). -/
structure ToolUsage where
  tokens : Option Int
  cost : Option Int
  duration : Option Int
deriving DecidableEq

/-- `Budget` of `types.ts`: optional ceilings for time, tokens, cost. -/
structure Budget where
  maxTime : Option Int
  maxTokens : Option Int
  maxCost : Option Int
deriving DecidableEq

/-- A `Step` of `types.ts`.  The source field `until` is a reserved word in
Lean and is embedded as `untilName`. -/
structure Step where
  name : String
  untilName : String
  maxIter : Nat
  tools : List String
  dependsOn : Option (List String)

/-- A `Spec` of `types.ts`. -/
structure Spec where
  initial : Value
  steps : List Step
  budget : Option Budget

/-- Result of a predicate call: `{ok: boolean, msg?: string}`. -/
structure Check where
  ok : Bool
  msg : Option String

/-- A tool's return value: `{output, usage?}` (`Tool.run` in `types.ts`). -/
structure ToolOut where
  output : Value
  usage : Option ToolUsage

/-- `StepResult` of `types.ts`. -/
structure StepResult where
  name : String
  iterations : Nat
  success : Bool
  error : Option String
  usage : Option Usage

/-- `Result` of `types.ts` (the run-level result). -/
structure RunResult where
  success : Bool
  data : Option Value
  steps : List StepResult
  usage : Usage
  message : String

/-- The executor's collaborators: the predicate registry and the tool
registry (`predicates` / `tools` constructor arguments of `DAGExecutor`).
A tool is modelled by its `run` function; a failing (rejecting) tool call
is `Except.error` with the error message. -/
structure Ctx where
  predicates : String → Option (Value → Check)
  tools : String → Option (Value → Except String ToolOut)

/-- Association-list lookup with string keys (first match), used for the
`stepData` map and for JS object fields. -/
def lookupKV {α : Type} : List (String × α) → String → Option α
  | [], _ => none
  | (k, v) :: rest, key => if k = key then some v else lookupKV rest key

/-- JS `Map.prototype.set`: updating an existing key keeps its position,
a new key is appended. -/
def setKey {α : Type} (m : List (String × α)) (k : String) (v : α) :
    List (String × α) :=
  if (lookupKV m k).isSome then
    m.map (fun p => if p.1 = k then (k, v) else p)
  else
    m ++ [(k, v)]

/-- `typeof x === 'object' && x !== null` for model values (arrays are not
modelled; `vnull` is `typeof 'object'` in JS but excluded by the null check). -/
def isObjectLike : Value → Bool
  | .vobj _ => true
  | _ => false

/-- JS object spread `{...base, ...update}`: base keys in order (values
overridden by `update` where present), then `update`'s new keys in order. -/
def spreadMerge (base update : List (String × Value)) : List (String × Value) :=
  (base.map (fun p =>
    match lookupKV update p.1 with
    | some w => (p.1, w)
    | none => p))
  ++ update.filter (fun p => (lookupKV base p.1).isNone)

/-- `DAGExecutor.mergeData` (serializer.ts:366-371): shallow merge when both
values are non-null objects, otherwise the update replaces the base wholesale. -/
def mergeData (base update : Value) : Value :=
  match base, update with
  | .vobj bs, .vobj us => .vobj (spreadMerge bs us)
  | _, _ => update

/-- JS truthiness of a model value (for `this.stepData.get('initial') || {}`). -/
def truthyValue : Value → Bool
  | .vnull => false
  | .vbool b => b
  | .vnum n => n ≠ 0
  | .vstr s => s ≠ ""
  | .vobj _ => true

/-- `DAGExecutor.getCurrentData` (serializer.ts:373-391) minus the dependency
awaiting (dependencies have already settled when a step runs, see header).
With a non-empty `dependsOn`, dependency outputs present in `stepData` are
shallow-merged in `dependsOn` order starting from `{}`; otherwise the
`'initial'` entry (`|| {}` on a falsy value) is used. -/
def getCurrentData (step : Step) (stepData : List (String × Value)) : Value :=
  match step.dependsOn with
  | some ds =>
    if ds.length > 0 then
      ds.foldl (fun merged dep =>
        match lookupKV stepData dep with
        | some depData => mergeData merged depData
        | none => merged) (.vobj [])
    else
      match lookupKV stepData "initial" with
      | some v => if truthyValue v then v else .vobj []
      | none => .vobj []
  | none =>
    match lookupKV stepData "initial" with
    | some v => if truthyValue v then v else .vobj []
    | none => .vobj []

/-- Message of the time-budget error (serializer.ts:354). -/
def timeLimitMsg (m : Int) : String :=
  "Budget exceeded: time limit of " ++ toString m ++ "ms"

/-- Message of the token-budget error (serializer.ts:358). -/
def tokenLimitMsg (m : Int) : String :=
  "Budget exceeded: token limit of " ++ toString m

/-- Message of the cost-budget error (serializer.ts:362). -/
def costLimitMsg (m : Int) : String :=
  "Budget exceeded: cost limit of $" ++ toString m

/-- JS truthiness of an optional number (`budget.maxTime && ...`):
absent and `0` are falsy. -/
def truthyNum : Option Int → Bool
  | some m => m ≠ 0
  | none => false

/-- `DAGExecutor.checkBudget` (serializer.ts:349-364).  Returns the thrown
error message, or `none` when no limit trips.  Each `budget.maxX && v > budget.maxX`
guard is truthiness followed by the strict comparison. -/
def checkBudget (budget : Option Budget) (usage : Usage) (elapsed : Int) :
    Option String :=
  match budget with
  | none => none
  | some b =>
    if truthyNum b.maxTime ∧ elapsed > (b.maxTime.getD 0) then
      some (timeLimitMsg (b.maxTime.getD 0))
    else if truthyNum b.maxTokens ∧ usage.tokens > (b.maxTokens.getD 0) then
      some (tokenLimitMsg (b.maxTokens.getD 0))
    else if truthyNum b.maxCost ∧ usage.cost > (b.maxCost.getD 0) then
      some (costLimitMsg (b.maxCost.getD 0))
    else
      none

/-- Usage accumulation after a tool call (serializer.ts:185-190): tokens and
cost (`|| 0` on absent fields) are added into the step-local and the global
accumulator.  The source lines do not touch the `duration` fields. -/
def applyToolUsage (stepUsage totalUsage : Usage) (u : Option ToolUsage) :
    Usage × Usage :=
  match u with
  | none => (stepUsage, totalUsage)
  | some uu =>
    ({ stepUsage with
        tokens := stepUsage.tokens + uu.tokens.getD 0
        cost := stepUsage.cost + uu.cost.getD 0 },
     { totalUsage with
        tokens := totalUsage.tokens + uu.tokens.getD 0
        cost := totalUsage.cost + uu.cost.getD 0 })

/-- JS `a || b` for an optional string (`finalCheck.msg || generic`):
an absent or empty message falls back to the default. -/
def jsOrString (o : Option String) (d : String) : String :=
  match o with
  | some s => if s = "" then d else s
  | none => d

/-- The mutable executor state threaded through a run: the `stepData` map and
the global usage accumulator, plus ghost invocation counters. -/
structure ExecState where
  stepData : List (String × Value)
  totalUsage : Usage
  toolCalls : Nat
  predCalls : Nat

/-- The state local to one step's iteration loop: the working data, the
step-local usage accumulator, the iteration counter, and the shared state. -/
structure IterSt where
  currentData : Value
  stepUsage : Usage
  iteration : Nat
  st : ExecState

/-- The tool loop inside one iteration (serializer.ts:176-191): run every tool
in listed order on the current working data, merge its patch, accumulate its
usage.  An unknown tool name or a failing tool call throws; the thrown error
carries the state reached so far (the catch clause reads it). -/
def runTools (ctx : Ctx) : List String → IterSt → Except (String × IterSt) IterSt
  | [], is => .ok is
  | toolName :: rest, is =>
    match ctx.tools toolName with
    | none => .error ("Unknown tool: " ++ toolName, is)
    | some tool =>
      match tool is.currentData with
      | .error e =>
        .error (e, { is with st := { is.st with toolCalls := is.st.toolCalls + 1 } })
      | .ok result =>
        let currentData := mergeData is.currentData result.output
        let acc := applyToolUsage is.stepUsage is.st.totalUsage result.usage
        runTools ctx rest
          { currentData := currentData
            stepUsage := acc.1
            iteration := is.iteration
            st := { is.st with
                      totalUsage := acc.2
                      toolCalls := is.st.toolCalls + 1 } }

/-- The `while (iteration < step.maxIter)` loop of `DAGExecutor.executeStep`
(serializer.ts:166-201), with the remaining iteration budget as fuel
(`fuel = step.maxIter - iteration` at every call).  Per pass: predicate check
with early break, tool loop, publish of the working data under the step's
name, iteration increment, budget check (throwing on breach), concurrency
slot wait (purely temporal, nothing to model sequentially), and the second
predicate check with early break. -/
def iterLoop (ctx : Ctx) (budget : Option Budget) (step : Step)
    (predicate : Value → Check) :
    Nat → IterSt → Except (String × IterSt) IterSt
  | 0, is => .ok is
  | fuel + 1, is =>
    let is := { is with st := { is.st with predCalls := is.st.predCalls + 1 } }
    let check := predicate is.currentData
    if check.ok then .ok is
    else
      match runTools ctx step.tools is with
      | .error p => .error p
      | .ok is1 =>
        let is2 := { is1 with
                      st := { is1.st with
                                stepData := setKey is1.st.stepData step.name is1.currentData }
                      iteration := is1.iteration + 1 }
        match checkBudget budget is2.st.totalUsage 0 with
        | some e => .error (e, is2)
        | none =>
          let is3 := { is2 with st := { is2.st with predCalls := is2.st.predCalls + 1 } }
          let checkAfter := predicate is3.currentData
          if checkAfter.ok then .ok is3
          else iterLoop ctx budget step predicate fuel is3

/-- One step's settlement record: the faithful `StepResult` plus ghost
observables (the starting data, the working data at termination, and whether
the catch path was taken). -/
structure StepRun where
  result : StepResult
  startData : Value
  finalData : Value
  threw : Bool

/-- `DAGExecutor.executeStep` (serializer.ts:147-287).  `Except.error` is the
one throw that escapes the method (the unknown-predicate throw before the
`try` block, serializer.ts:161-163); everything thrown inside the `try` is
converted by the catch clause (serializer.ts:257-286) into a failed
`StepResult` that keeps the iteration count and step usage reached so far
and does not publish the in-flight working data. -/
def executeStep (ctx : Ctx) (spec : Spec) (step : Step) (st : ExecState) :
    Except String (StepRun × ExecState) :=
  let stepUsage : Usage := ⟨0, 0, 0⟩
  let currentData := getCurrentData step st.stepData
  match ctx.predicates step.untilName with
  | none => .error ("Unknown predicate: " ++ step.untilName)
  | some predicate =>
    match iterLoop ctx spec.budget step predicate step.maxIter
        ⟨currentData, stepUsage, 0, st⟩ with
    | .ok is =>
      let is := { is with st := { is.st with predCalls := is.st.predCalls + 1 } }
      let finalCheck := predicate is.currentData
      let stepUsage := { is.stepUsage with duration := 0 }
      let st' := { is.st with stepData := setKey is.st.stepData step.name is.currentData }
      if finalCheck.ok then
        .ok ({ result := { name := step.name, iterations := is.iteration,
                           success := true, error := none, usage := some stepUsage }
               startData := currentData, finalData := is.currentData, threw := false },
             st')
      else
        .ok ({ result := { name := step.name, iterations := is.iteration,
                           success := false,
                           error := some (jsOrString finalCheck.msg
                             ("Failed after " ++ toString is.iteration ++ " iterations")),
                           usage := some stepUsage }
               startData := currentData, finalData := is.currentData, threw := false },
             st')
    | .error (e, is) =>
      .ok ({ result := { name := step.name, iterations := is.iteration,
                         success := false, error := some e, usage := some is.stepUsage }
             startData := currentData, finalData := is.currentData, threw := true },
           is.st)

/-- The `.catch` attached to each step promise in `DAGExecutor.execute`
(serializer.ts:116-123): a runner-level throw becomes a failed `StepResult`
with zero iterations and no usage. -/
def executeStepTop (ctx : Ctx) (spec : Spec) (step : Step) (st : ExecState) :
    StepRun × ExecState :=
  match executeStep ctx spec step st with
  | .ok p => p
  | .error e =>
    ({ result := { name := step.name, iterations := 0, success := false,
                   error := some e, usage := none }
       startData := getCurrentData step st.stepData
       finalData := getCurrentData step st.stepData
       threw := true },
     st)

/-- The per-name update of the edge-building loop of `DAGExecutor.topoSort`.
Maps are modelled as functions into `Option`; `updFun` is `Map.set`. -/
def updFun {α : Type} (f : String → Option α) (k : String) (v : α) :
    String → Option α :=
  fun x => if x = k then some v else f x

/-- The two maps built by `DAGExecutor.topoSort` (serializer.ts:290-306). -/
structure BuildSt where
  inDegree : String → Option Int
  graph : String → Option (List String)

/-- First loop of `topoSort` (serializer.ts:293-296): every step's name gets
in-degree 0 and an empty adjacency list. -/
def initMaps (steps : List Step) : BuildSt :=
  steps.foldl
    (fun st step =>
      ⟨updFun st.inDegree step.name 0, updFun st.graph step.name []⟩)
    ⟨fun _ => none, fun _ => none⟩

/-- `step.dependsOn || []`. -/
def depsOf (step : Step) : List String := step.dependsOn.getD []

/-- Second loop of `topoSort` (serializer.ts:298-306): for every dependency
edge, check that the dependency is a known step name (else throw), record the
dependent in the dependency's adjacency list, and bump the dependent's
in-degree. -/
def addEdges (steps : List Step) (st : BuildSt) : Except String BuildSt :=
  steps.foldlM
    (fun st step =>
      (depsOf step).foldlM
        (fun (st : BuildSt) dep =>
          match st.graph dep with
          | none => .error ("Unknown dependency: " ++ dep)
          | some lst =>
            .ok ⟨updFun st.inDegree step.name ((st.inDegree step.name).getD 0 + 1),
                 updFun st.graph dep (lst ++ [step.name])⟩)
        st)
    st

/-- `new Map(steps.map(s => [s.name, s]))` looked up by name.  `List.find?`
takes the first step of a name where the JS `Map` keeps the last; the two
agree on the specs under consideration, whose step names are unique (the
data-model invariant of the spec). -/
def stepMapGet (steps : List Step) (n : String) : Option Step :=
  steps.find? (fun s => s.name = n)

/-- Initial queue of `topoSort` (serializer.ts:312-316): the zero-in-degree
steps, iterating the in-degree map in insertion order (= step order for
unique names). -/
def initQueue (steps : List Step) (inDegree : String → Option Int) : List Step :=
  (steps.map (fun s => s.name)).filterMap
    (fun n => if inDegree n = some 0 then stepMapGet steps n else none)

/-- Inner loop of the Kahn pop (serializer.ts:322-328): decrement every
dependent of the popped step, enqueueing those that reach in-degree 0.
(`stepMap.get(dependent)!` is a non-null assertion in the source; a missing
entry, impossible for well-formed inputs, is skipped here.) -/
def processDependents (stepMap : String → Option Step) (dependents : List String)
    (queue : List Step) (inDegree : String → Option Int) :
    List Step × (String → Option Int) :=
  dependents.foldl
    (fun (acc : List Step × (String → Option Int)) dependent =>
      let newDegree := (acc.2 dependent).getD 0 - 1
      let inDegree' := updFun acc.2 dependent newDegree
      if newDegree = 0 then
        match stepMap dependent with
        | some s => (acc.1 ++ [s], inDegree')
        | none => (acc.1, inDegree')
      else (acc.1, inDegree'))
    (queue, inDegree)

/-- The `while (queue.length > 0)` loop of `topoSort` (serializer.ts:318-329),
with fuel.  `steps.length` fuel always suffices: every name is enqueued at
most once (a name's in-degree reaches exactly 0 at most once), so the source
loop pops at most `steps.length` times on the inputs under consideration. -/
def kahnLoop (graph : String → Option (List String)) (stepMap : String → Option Step) :
    Nat → List Step → (String → Option Int) → List Step → List Step
  | 0, _, _, result => result
  | _ + 1, [], _, result => result
  | fuel + 1, current :: queue, inDegree, result =>
    let p := processDependents stepMap ((graph current.name).getD []) queue inDegree
    kahnLoop graph stepMap fuel p.1 p.2 (result ++ [current])

/-- `DAGExecutor.topoSort` (serializer.ts:289-336): build the in-degree and
adjacency maps (throwing on an unknown dependency), run Kahn's algorithm, and
throw the cycle error when not every step was emitted. -/
def topoSort (steps : List Step) : Except String (List Step) :=
  match addEdges steps (initMaps steps) with
  | .error e => .error e
  | .ok st =>
    let queue := initQueue steps st.inDegree
    let result := kahnLoop st.graph (stepMapGet steps) steps.length queue st.inDegree []
    if result.length ≠ steps.length then
      .error "Circular dependency detected in steps"
    else
      .ok result

/-- `DAGExecutor.getFinalData` (serializer.ts:393-399): the data of the last
successful step in settlement order, falling back to the `'initial'` entry. -/
def getFinalData (results : List StepResult) (stepData : List (String × Value)) :
    Option Value :=
  match results.reverse.find? (fun r => r.success) with
  | some lastSuccessful =>
    if lastSuccessful.name ≠ "initial" then
      lookupKV stepData lastSuccessful.name
    else
      lookupKV stepData "initial"
  | none => lookupKV stepData "initial"

/-- `DAGExecutor.formatMessage` (serializer.ts:401-411). -/
def formatMessage (success : Bool) (results : List StepResult) : String :=
  let totalIterations := results.foldl (fun sum r => sum + r.iterations) 0
  let stepsCount := results.length
  if success then
    "✅ Done in " ++ toString totalIterations ++ " iterations across "
      ++ toString stepsCount ++ " step" ++ (if stepsCount > 1 then "s" else "")
  else
    let failedSteps := results.filter (fun r => !r.success)
    "❌ Failed: " ++ toString failedSteps.length ++ " step"
      ++ (if failedSteps.length > 1 then "s" else "") ++ " failed"

/-- Outcome of `DAGExecutor.execute`: the returned `Result` (or the rejection
escaping the method, as `Except.error`), plus the final executor state and
the per-step settlement records as ghost observables. -/
structure ExecOutcome where
  result : Except String RunResult
  state : ExecState
  runs : List StepRun

/-- The step-launch loop of `execute` (serializer.ts:111-128), sequentialized
in topological order (see header): each step settles via `executeStepTop`,
and the settlement records accumulate in completion order. -/
def runSteps (ctx : Ctx) (spec : Spec) (order : List Step) (st : ExecState) :
    ExecState × List StepRun :=
  order.foldl
    (fun (acc : ExecState × List StepRun) step =>
      let p := executeStepTop ctx spec step acc.1
      (p.2, acc.2 ++ [p.1]))
    (st, [])

/-- `DAGExecutor.execute` (serializer.ts:100-145).  The `stepData` map starts
fresh with the `'initial'` seed; `topoSort` runs outside any try/catch, so
its throw (unknown dependency or cycle) escapes `execute` as a rejection;
otherwise all steps settle and the `Result` is assembled. -/
def execute (ctx : Ctx) (spec : Spec) : ExecOutcome :=
  let st0 : ExecState := ⟨[("initial", spec.initial)], ⟨0, 0, 0⟩, 0, 0⟩
  match topoSort spec.steps with
  | .error e => ⟨.error e, st0, []⟩
  | .ok order =>
    let sr := runSteps ctx spec order st0
    let results := sr.2.map (fun r => r.result)
    let allSuccessful := results.all (fun r => r.success)
    let finalData := getFinalData results sr.1.stepData
    ⟨.ok { success := allSuccessful
           data := finalData
           steps := results
           usage := { sr.1.totalUsage with duration := 0 }
           message := formatMessage allSuccessful results },
     sr.1, sr.2⟩

/-- The dependency edge relation of a spec: `depEdge steps d n` holds when the
step named `n` lists `d` in its `dependsOn`. -/
def depEdge (steps : List Step) (d n : String) : Prop :=
  ∃ s ∈ steps, s.name = n ∧ d ∈ depsOf s

/-- The `dependsOn` relation contains a cycle: some name reaches itself
through one or more dependency edges. -/
def HasCycle (steps : List Step) : Prop :=
  ∃ a, Relation.TransGen (depEdge steps) a a

/-- The list of a spec's step names. -/
def stepNames (steps : List Step) : List String :=
  steps.map (fun s => s.name)

/-- A budget dimension admits the value `v`: the ceiling is absent, zero
(falsy in the source's truthiness test), or at least `v`. -/
def dimOk (ceiling : Option Int) (v : Int) : Prop :=
  ∀ m, ceiling = some m → m ≠ 0 → v ≤ m

/-- The token count a tool reported (`result.usage.tokens || 0`, 0 when no
usage record was returned). -/
def reportedTokens (u : Option ToolUsage) : Int :=
  match u with
  | none => 0
  | some uu => uu.tokens.getD 0

/-- The cost a tool reported (`result.usage.cost || 0`). -/
def reportedCost (u : Option ToolUsage) : Int :=
  match u with
  | none => 0
  | some uu => uu.cost.getD 0

/-- Demo predicate that is never satisfied and always reports a reason. -/
def predNever : Value → Check := fun _ => ⟨false, some "not satisfied"⟩

/-- Demo predicate that is always satisfied. -/
def predOk : Value → Check := fun _ => ⟨true, none⟩

/-- Demo tool patching `{a: 1}` and reporting usage
`{tokens: 3, cost: 2, duration: 100}`. -/
def toolSetA : Value → Except String ToolOut :=
  fun _ => .ok ⟨.vobj [("a", .vnum 1)], some ⟨some 3, some 2, some 100⟩⟩

/-- Demo tool that always fails. -/
def toolBoom : Value → Except String ToolOut := fun _ => .error "boom"

/-- Demo registries used by the concrete executions below. -/
def ctxDemo : Ctx :=
  ⟨fun n => if n = "never" then some predNever
            else if n = "ok" then some predOk else none,
   fun n => if n = "setA" then some toolSetA
            else if n = "boom" then some toolBoom else none⟩

/-- Fresh executor state with an empty-object seed. -/
def stDemo : ExecState := ⟨[("initial", .vobj [])], ⟨0, 0, 0⟩, 0, 0⟩

/-- Step whose second tool fails during the first iteration. -/
def stepS : Step := ⟨"S", "never", 3, ["setA", "boom"], none⟩

/-- Step depending on `stepS`, satisfied immediately. -/
def stepT : Step := ⟨"T", "ok", 3, [], some ["S"]⟩

/-- Spec exercising a mid-iteration tool failure and its dependent. -/
def specST : Spec := ⟨.vobj [], [stepS, stepT], none⟩

/-- A step literally named `initial` that patches data and then fails. -/
def stepNamedInitial : Step := ⟨"initial", "never", 1, ["setA"], none⟩

/-- Spec whose only (failing) step is named `initial`. -/
def specNamedInitial : Spec := ⟨.vobj [("z", .vnum 7)], [stepNamedInitial], none⟩

/-- Spec with an unknown dependency reference. -/
def specUnknownDep : Spec := ⟨.vobj [], [⟨"U", "ok", 1, [], some ["ghost"]⟩], none⟩

/-- Spec with a two-step dependency cycle. -/
def specCycle : Spec :=
  ⟨.vobj [], [⟨"A", "ok", 1, [], some ["B"]⟩, ⟨"B", "ok", 1, [], some ["A"]⟩], none⟩

/-- Spec with one dependency-free step (trivially acyclic). -/
def specSingle : Spec := ⟨.vobj [], [⟨"A", "ok", 1, [], none⟩], none⟩

/-- Exhaustion demo step: predicate never satisfied, one tool, two iterations. -/
def stepW4 : Step := ⟨"W4", "never", 2, ["setA"], none⟩

/-- Spec containing only `stepW4`, without a budget. -/
def specW4 : Spec := ⟨.vobj [], [stepW4], none⟩

/-- Step used by the merge demo: depends on `X` then `Y`. -/
def stepC5 : Step := ⟨"C", "ok", 1, [], some ["X", "Y"]⟩

/-- Published outputs of `X` (`{a:1}`) and `Y` (`{a:2, b:3}`). -/
def stepDataC5 : List (String × Value) :=
  [("X", .vobj [("a", .vnum 1)]), ("Y", .vobj [("a", .vnum 2), ("b", .vnum 3)])]

/-- Pointwise value of `outsC5` (outputs of `X` and `Y` as a function). -/
def outsC5 : String → Value :=
  fun d => if d = "X" then .vobj [("a", .vnum 1)] else .vobj [("a", .vnum 2), ("b", .vnum 3)]

/-- The dependents of a name `d`: the names of the steps that list `d` in
their `dependsOn`, in step order (this is the adjacency list `topoSort`
builds for `d`, given per-step `dependsOn` lists without duplicates). -/
def dependentsOf (steps : List Step) (d : String) : List String :=
  (steps.filter (fun s => decide (d ∈ depsOf s))).map (fun s => s.name)

/-- Invariant of the Kahn loop state (queue, in-degree map, emitted list)
over a fixed step list: (1) no name appears twice among emitted and queued
steps and all of them are steps of the spec; (2) every step's tracked
in-degree counts its dependencies not yet emitted; (3) a step neither
emitted nor queued still has an unemitted dependency; (4) every emitted
step's dependencies were emitted before it; (5) every queued step has all
dependencies emitted. -/
def KahnInv (steps : List Step) (queue : List Step)
    (inDegree : String → Option Int) (result : List Step) : Prop :=
  (((result ++ queue).map (fun s => s.name)).Nodup
    ∧ ∀ x ∈ result ++ queue, x ∈ steps)
  ∧ (∀ s ∈ steps, inDegree s.name
      = some (((depsOf s).filter
          (fun d => decide (d ∉ result.map (fun s => s.name)))).length : Int))
  ∧ (∀ s ∈ steps, s.name ∉ (result ++ queue).map (fun s => s.name) →
      (depsOf s).filter (fun d => decide (d ∉ result.map (fun s => s.name))) ≠ [])
  ∧ (∀ (i : Nat) (hi : i < result.length), ∀ d ∈ depsOf (result.get ⟨i, hi⟩),
      d ∈ (result.take i).map (fun s => s.name))
  ∧ (∀ x ∈ queue, (depsOf x).filter
      (fun d => decide (d ∉ result.map (fun s => s.name))) = [])

/-- The iteration-loop state carried by either outcome (the normal result or
the state at the throw). -/
def outState : Except (String × IterSt) IterSt → IterSt
  | .ok is => is
  | .error (_, is) => is

theorem lookupKV_append {α : Type} (l1 l2 : List (String × α)) (k : String) :
    lookupKV (l1 ++ l2) k
      = match lookupKV l1 k with
        | some v => some v
        | none => lookupKV l2 k := by
  induction l1 with
  | nil => rfl
  | cons p rest ih =>
    obtain ⟨k', v⟩ := p
    by_cases h : k' = k <;> simp [lookupKV, h, ih]

theorem lookupKV_override (bs us : List (String × Value)) (k : String) :
    lookupKV (bs.map (fun p =>
        match lookupKV us p.1 with
        | some w => (p.1, w)
        | none => p)) k
      = match lookupKV bs k with
        | some v =>
          some (match lookupKV us k with
                | some w => w
                | none => v)
        | none => none := by
  induction bs with
  | nil => rfl
  | cons p rest ih =>
    obtain ⟨k', v⟩ := p
    by_cases h : k' = k
    · subst h
      cases hu : lookupKV us k' <;> simp [lookupKV, hu]
    · cases hu : lookupKV us k' <;> simp [lookupKV, h, hu, ih]

theorem lookupKV_filter_new (bs us : List (String × Value)) (k : String) :
    lookupKV (us.filter (fun p => (lookupKV bs p.1).isNone)) k
      = match lookupKV bs k with
        | some _ => none
        | none => lookupKV us k := by
  induction us with
  | nil => cases lookupKV bs k <;> rfl
  | cons p rest ih =>
    obtain ⟨k', v⟩ := p
    by_cases h : k' = k
    · subst h
      cases hb : lookupKV bs k' <;> simp [List.filter, lookupKV, hb, ih]
    · cases hb : lookupKV bs k' <;> cases hb' : lookupKV bs k' <;>
        cases hbk : (lookupKV bs k').isNone <;>
        simp_all [List.filter, lookupKV, h, ih]

theorem lookupKV_spreadMerge (bs us : List (String × Value)) (k : String) :
    lookupKV (spreadMerge bs us) k
      = match lookupKV us k with
        | some w => some w
        | none => lookupKV bs k := by
  unfold spreadMerge
  rw [lookupKV_append, lookupKV_override, lookupKV_filter_new]
  cases hb : lookupKV bs k <;> cases hu : lookupKV us k <;> simp

theorem foldl_congr_mem {α β : Type} (l : List α) (f g : β → α → β) (init : β)
    (h : ∀ a ∈ l, ∀ acc, f acc a = g acc a) : l.foldl f init = l.foldl g init := by
  induction l generalizing init with
  | nil => rfl
  | cons x xs ih =>
    simp only [List.foldl_cons]
    rw [h x (by simp)]
    exact ih _ (fun a ha acc => h a (by simp [ha]) acc)

/-- C10: whenever the working data or the incoming value is not a non-null
object, `mergeData` returns the incoming value wholesale, discarding the
previous working data. -/
theorem mergeData_nonobject_replaces (b u : Value)
    (h : isObjectLike b = false ∨ isObjectLike u = false) : mergeData b u = u := by
  cases b <;> cases u <;> first
    | rfl
    | (exfalso; simp [isObjectLike] at h)

/-- Witness for `mergeData_nonobject_replaces`: merging the number 5 into the
object `{a:1}` discards the object. -/
theorem mergeData_nonobject_replaces_witness :
    isObjectLike (Value.vnum 5) = false ∧
      mergeData (Value.vobj [("a", Value.vnum 1)]) (Value.vnum 5) = Value.vnum 5 :=
  ⟨rfl, mergeData_nonobject_replaces _ _ (Or.inr rfl)⟩

/-- C5: with a non-empty `dependsOn` whose outputs are all published, the
starting data is the shallow merge of the dependency outputs folded in
`dependsOn` order from `{}`; on key collision the later merge operand wins
(`lookupKV_spreadMerge` shape); in particular `[X, Y]` with `X = {a:1}` and
`Y = {a:2,b:3}` starts from `{a:2,b:3}`. -/
theorem getCurrentData_dependency_merge :
    (∀ (step : Step) (stepData : List (String × Value)) (ds : List String)
        (outs : String → Value),
      step.dependsOn = some ds → ds ≠ [] →
      (∀ d ∈ ds, lookupKV stepData d = some (outs d)) →
      getCurrentData step stepData
        = ds.foldl (fun acc d => mergeData acc (outs d)) (Value.vobj []))
    ∧ (∀ (bs us : List (String × Value)) (k : String),
      mergeData (Value.vobj bs) (Value.vobj us) = Value.vobj (spreadMerge bs us)
        ∧ lookupKV (spreadMerge bs us) k
          = match lookupKV us k with
            | some w => some w
            | none => lookupKV bs k)
    ∧ getCurrentData stepC5 stepDataC5
        = Value.vobj [("a", Value.vnum 2), ("b", Value.vnum 3)] := by
  refine ⟨?_, ?_, rfl⟩
  · intro step stepData ds outs hdep hne hout
    rcases step with ⟨nm, un, mi, ts, dep⟩
    dsimp only at hdep
    subst hdep
    dsimp only [getCurrentData]
    rw [if_pos (List.length_pos.mpr hne)]
    exact foldl_congr_mem ds _ _ _ (fun d hd acc => by rw [hout d hd])
  · intro bs us k
    exact ⟨rfl, lookupKV_spreadMerge bs us k⟩

/-- Witness for `getCurrentData_dependency_merge`: its hypotheses hold for
the concrete `[X, Y]` instance. -/
theorem getCurrentData_dependency_merge_witness :
    getCurrentData stepC5 stepDataC5
      = ["X", "Y"].foldl (fun acc d => mergeData acc (outsC5 d)) (Value.vobj []) := by
  exact getCurrentData_dependency_merge.1 stepC5 stepDataC5 ["X", "Y"] outsC5 rfl
    (by decide)
    (by intro d hd; fin_cases hd <;> rfl)

/-- Normalized form of `checkBudget` on a present budget. -/
theorem checkBudget_some_eq (b : Budget) (u : Usage) (e : Int) :
    checkBudget (some b) u e =
      if truthyNum b.maxTime = true ∧ e > b.maxTime.getD 0 then
        some (timeLimitMsg (b.maxTime.getD 0))
      else if truthyNum b.maxTokens = true ∧ u.tokens > b.maxTokens.getD 0 then
        some (tokenLimitMsg (b.maxTokens.getD 0))
      else if truthyNum b.maxCost = true ∧ u.cost > b.maxCost.getD 0 then
        some (costLimitMsg (b.maxCost.getD 0))
      else none := rfl

/-- A dimension admits a value exactly when its truthiness-guarded strict
comparison does not trip. -/
theorem dimOk_iff (o : Option Int) (v : Int) :
    dimOk o v ↔ ¬(truthyNum o = true ∧ v > o.getD 0) := by
  cases o with
  | none => simp [dimOk, truthyNum]
  | some m =>
    simp only [dimOk, truthyNum, Option.getD, Option.some.injEq]
    constructor
    · intro h hc
      rcases hc with ⟨h1, h2⟩
      simp only [bne_iff_ne, ne_eq, decide_not, Bool.not_eq_eq_eq_not, Bool.not_true,
        decide_eq_false_iff_not] at h1
      have := h m rfl h1
      omega
    · intro h m' hm' hne
      cases hm'
      by_contra hlt
      exact h ⟨by simp [hne], by omega⟩

/-- C7 (amended): each budget dimension is checked independently with
strict-greater-than semantics and equality allowed, an absent dimension is
unbounded, and — the amendment — a dimension configured as 0 is falsy in the
source's truthiness guard and therefore also unbounded. -/
theorem checkBudget_dimension_semantics :
    (∀ (b : Budget) (u : Usage) (e : Int),
      checkBudget (some b) u e = none ↔
        dimOk b.maxTime e ∧ dimOk b.maxTokens u.tokens ∧ dimOk b.maxCost u.cost)
    ∧ (∀ (b : Budget) (u : Usage) (e m : Int),
      b.maxTime = some m → m ≠ 0 → e > m →
      checkBudget (some b) u e = some (timeLimitMsg m))
    ∧ (∀ (b : Budget) (u : Usage) (e m : Int),
      b.maxTokens = some m → m ≠ 0 → u.tokens > m → dimOk b.maxTime e →
      checkBudget (some b) u e = some (tokenLimitMsg m))
    ∧ (∀ (b : Budget) (u : Usage) (e m : Int),
      b.maxCost = some m → m ≠ 0 → u.cost > m → dimOk b.maxTime e →
      dimOk b.maxTokens u.tokens →
      checkBudget (some b) u e = some (costLimitMsg m))
    ∧ (∀ (u : Usage) (e : Int), checkBudget none u e = none) := by
  refine ⟨?_, ?_, ?_, ?_, fun u e => rfl⟩
  · intro b u e
    rw [checkBudget_some_eq]
    split_ifs with h1 h2 h3
    · simp [dimOk_iff, h1]
    · simp [dimOk_iff, h1, h2]
    · simp [dimOk_iff, h1, h2, h3]
    · simp [dimOk_iff, h1, h2, h3]
  · intro b u e m hm hne hgt
    rw [checkBudget_some_eq, hm]
    rw [if_pos ⟨by simp [truthyNum, hne], by simpa using hgt⟩]
    rfl
  · intro b u e m hm hne hgt hok
    rw [checkBudget_some_eq, hm]
    rw [if_neg ((dimOk_iff _ _).mp hok)]
    rw [if_pos ⟨by simp [truthyNum, hne], by simpa using hgt⟩]
    rfl
  · intro b u e m hm hne hgt hoktime hoktok
    rw [checkBudget_some_eq, hm]
    rw [if_neg ((dimOk_iff _ _).mp hoktime)]
    rw [if_neg ((dimOk_iff _ _).mp hoktok)]
    rw [if_pos ⟨by simp [truthyNum, hne], by simpa using hgt⟩]
    rfl


/-- Counterexample to C7 as stated: a configured token ceiling of 0 that is
strictly exceeded (5 > 0) trips no budget error, because `budget.maxTokens`
is falsy. -/
theorem checkBudget_zero_ceiling_no_error :
    checkBudget (some ⟨none, some 0, none⟩) ⟨5, 0, 0⟩ 0 = none ∧ (5 : Int) > 0 :=
  ⟨rfl, by decide⟩

/-- Witness for `checkBudget_dimension_semantics`: a nonzero token ceiling of
10 with 11 tokens used trips the token-dimension error. -/
theorem checkBudget_dimension_semantics_witness :
    checkBudget (some ⟨none, some 10, none⟩) ⟨11, 0, 0⟩ 0 = some (tokenLimitMsg 10) :=
  checkBudget_dimension_semantics.2.2.1 ⟨none, some 10, none⟩ ⟨11, 0, 0⟩ 0 10 rfl
    (by decide) (by decide) (fun m hm => nomatch hm)

/-- C6 (amended): a tool invocation that returns a usage record adds the
reported tokens and cost into both the step-local and the global accumulator,
and leaves both duration fields unchanged (the source lines 185-190 never
read the reported duration). -/
theorem runTools_adds_tokens_cost_only :
    ∀ (ctx : Ctx) (t : String) (f : Value → Except String ToolOut) (out : ToolOut)
      (is : IterSt),
      ctx.tools t = some f → f is.currentData = .ok out →
      (runTools ctx [t] is).map (fun is' =>
          (is'.stepUsage.tokens, is'.stepUsage.cost, is'.stepUsage.duration,
           is'.st.totalUsage.tokens, is'.st.totalUsage.cost, is'.st.totalUsage.duration))
        = .ok (is.stepUsage.tokens + reportedTokens out.usage,
               is.stepUsage.cost + reportedCost out.usage,
               is.stepUsage.duration,
               is.st.totalUsage.tokens + reportedTokens out.usage,
               is.st.totalUsage.cost + reportedCost out.usage,
               is.st.totalUsage.duration) := by
  intro ctx t f out is ht hout
  simp only [runTools, ht, hout]
  cases hu : out.usage with
  | none =>
    simp [runTools, applyToolUsage, hu, reportedTokens, reportedCost, Except.map]
  | some uu =>
    simp [runTools, applyToolUsage, hu, reportedTokens, reportedCost, Except.map]

/-- Counterexample to C6 as stated: a tool reporting
`{tokens:3, cost:2, duration:100}` leaves both duration accumulators at 0 —
the reported duration is not added anywhere. -/
theorem runTools_drops_reported_duration :
    (runTools ctxDemo ["setA"] ⟨.vobj [], ⟨0, 0, 0⟩, 0, stDemo⟩).map
        (fun is' => (is'.stepUsage.duration, is'.st.totalUsage.duration))
      = .ok (0, 0)
    ∧ (0 : Int) ≠ 0 + 100 :=
  ⟨rfl, by decide⟩

/-- Witness for `runTools_adds_tokens_cost_only`: the demo tool `setA`
(tokens 3, cost 2) accumulates into step usage `⟨1,1,1⟩` and total `⟨0,0,0⟩`. -/
theorem runTools_adds_tokens_cost_only_witness :
    (runTools ctxDemo ["setA"] ⟨.vobj [], ⟨1, 1, 1⟩, 0, stDemo⟩).map (fun is' =>
        (is'.stepUsage.tokens, is'.stepUsage.cost, is'.stepUsage.duration,
         is'.st.totalUsage.tokens, is'.st.totalUsage.cost, is'.st.totalUsage.duration))
      = .ok (4, 3, 1, 3, 2, 0) := by
  exact runTools_adds_tokens_cost_only ctxDemo "setA" toolSetA ⟨.vobj [("a", .vnum 1)],
    some ⟨some 3, some 2, some 100⟩⟩ ⟨.vobj [], ⟨1, 1, 1⟩, 0, stDemo⟩ rfl rfl

theorem runTools_preserves (ctx : Ctx) :
    ∀ (ts : List String) (is : IterSt),
      (∀ is', runTools ctx ts is = .ok is' →
        is'.st.stepData = is.st.stepData ∧ is'.iteration = is.iteration)
      ∧ (∀ e is', runTools ctx ts is = .error (e, is') →
        is'.st.stepData = is.st.stepData ∧ is'.iteration = is.iteration) := by
  intro ts
  induction ts with
  | nil =>
    intro is
    refine ⟨fun is' h => ?_, fun e is' h => ?_⟩
    · simp only [runTools] at h
      cases h
      exact ⟨rfl, rfl⟩
    · simp only [runTools] at h
      cases h
  | cons t rest ih =>
    intro is
    refine ⟨fun is' h => ?_, fun e is' h => ?_⟩
    · cases htool : ctx.tools t with
      | none =>
        simp only [runTools, htool] at h
        cases h
      | some f =>
        cases hrun : f is.currentData with
        | error er =>
          simp only [runTools, htool, hrun] at h
          cases h
        | ok out =>
          simp only [runTools, htool, hrun] at h
          have h' := (ih _).1 is' h
          exact h' 
    · cases htool : ctx.tools t with
      | none =>
        simp only [runTools, htool, Except.error.injEq, Prod.mk.injEq] at h
        obtain ⟨-, his⟩ := h
        subst his
        exact ⟨rfl, rfl⟩
      | some f =>
        cases hrun : f is.currentData with
        | error er =>
          simp only [runTools, htool, hrun, Except.error.injEq, Prod.mk.injEq] at h
          obtain ⟨-, his⟩ := h
          subst his
          exact ⟨rfl, rfl⟩
        | ok out =>
          simp only [runTools, htool, hrun] at h
          have h' := (ih _).2 e is' h
          exact h' 

theorem runTools_all_ok (ctx : Ctx) :
    ∀ (ts : List String) (is : IterSt),
      (∀ t ∈ ts, ∃ f, ctx.tools t = some f ∧ ∀ d, ∃ o, f d = .ok o) →
      ∃ is', runTools ctx ts is = .ok is'
        ∧ is'.iteration = is.iteration
        ∧ is'.st.stepData = is.st.stepData
        ∧ is'.st.toolCalls = is.st.toolCalls + ts.length := by
  intro ts
  induction ts with
  | nil =>
    intro is _
    exact ⟨is, rfl, rfl, rfl, by simp⟩
  | cons t rest ih =>
    intro is h
    obtain ⟨f, hf, hok⟩ := h t (by simp)
    obtain ⟨o, ho⟩ := hok is.currentData
    obtain ⟨is', h1, h2, h3, h4⟩ :=
      ih { currentData := mergeData is.currentData o.output
           stepUsage := (applyToolUsage is.stepUsage is.st.totalUsage o.usage).1
           iteration := is.iteration
           st := { is.st with
                     totalUsage := (applyToolUsage is.stepUsage is.st.totalUsage o.usage).2
                     toolCalls := is.st.toolCalls + 1 } }
        (fun t' ht' => h t' (by simp [ht']))
    refine ⟨is', ?_, h2, h3, ?_⟩
    · simp only [runTools, hf, ho]
      exact h1
    · have h4' : is'.st.toolCalls = is.st.toolCalls + 1 + rest.length := h4
      simp only [h4', List.length_cons]
      omega

theorem iterLoop_error_iter_mono (ctx : Ctx) (budget : Option Budget) (step : Step)
    (predicate : Value → Check) :
    ∀ (fuel : Nat) (is : IterSt) (e : String) (is' : IterSt),
      iterLoop ctx budget step predicate fuel is = .error (e, is') →
      is.iteration ≤ is'.iteration := by
  intro fuel
  induction fuel with
  | zero =>
    intro is e is' h
    simp only [iterLoop] at h
    cases h
  | succ fuel ih =>
    intro is e is' h
    simp only [iterLoop] at h
    cases hck : (predicate is.currentData).ok with
    | true =>
      simp only [hck, if_true] at h
      cases h
    | false =>
      simp only [hck, Bool.false_eq_true, if_false] at h
      cases hrt : runTools ctx step.tools
          { is with st := { is.st with predCalls := is.st.predCalls + 1 } } with
      | error p =>
        obtain ⟨pe, pis⟩ := p
        simp only [hrt, Except.error.injEq, Prod.mk.injEq] at h
        obtain ⟨-, his⟩ := h
        subst his
        have hpres := (runTools_preserves ctx step.tools _).2 pe pis hrt
        have h2 : pis.iteration = is.iteration := hpres.2
        omega
      | ok is1 =>
        simp only [hrt] at h
        have hpres := (runTools_preserves ctx step.tools _).1 is1 hrt
        have h2 : is1.iteration = is.iteration := hpres.2
        cases hcb : checkBudget budget
            { is1 with
                st := { is1.st with stepData := setKey is1.st.stepData step.name is1.currentData }
                iteration := is1.iteration + 1 }.st.totalUsage 0 with
        | some e' =>
          simp only [hcb, Except.error.injEq, Prod.mk.injEq] at h
          obtain ⟨-, his⟩ := h
          subst his
          show is.iteration ≤ is1.iteration + 1
          omega
        | none =>
          simp only [hcb] at h
          cases hck2 : (predicate is1.currentData).ok with
          | true =>
            simp only [hck2, if_true] at h
            cases h
          | false =>
            simp only [hck2, Bool.false_eq_true, if_false] at h
            have h3 := ih _ e is' h
            have h4 : is1.iteration + 1 ≤ is'.iteration := h3
            omega

theorem iterLoop_error_stepData_of_iter_eq (ctx : Ctx) (budget : Option Budget)
    (step : Step) (predicate : Value → Check) :
    ∀ (fuel : Nat) (is : IterSt) (e : String) (is' : IterSt),
      iterLoop ctx budget step predicate fuel is = .error (e, is') →
      is'.iteration = is.iteration →
      is'.st.stepData = is.st.stepData := by
  intro fuel
  induction fuel with
  | zero =>
    intro is e is' h
    simp only [iterLoop] at h
    cases h
  | succ fuel ih =>
    intro is e is' h hiter
    simp only [iterLoop] at h
    cases hck : (predicate is.currentData).ok with
    | true =>
      simp only [hck, if_true] at h
      cases h
    | false =>
      simp only [hck, Bool.false_eq_true, if_false] at h
      cases hrt : runTools ctx step.tools
          { is with st := { is.st with predCalls := is.st.predCalls + 1 } } with
      | error p =>
        obtain ⟨pe, pis⟩ := p
        simp only [hrt, Except.error.injEq, Prod.mk.injEq] at h
        obtain ⟨-, his⟩ := h
        subst his
        have hpres := (runTools_preserves ctx step.tools _).2 pe pis hrt
        exact hpres.1
      | ok is1 =>
        simp only [hrt] at h
        have hpres := (runTools_preserves ctx step.tools _).1 is1 hrt
        have h2 : is1.iteration = is.iteration := hpres.2
        cases hcb : checkBudget budget
            { is1 with
                st := { is1.st with stepData := setKey is1.st.stepData step.name is1.currentData }
                iteration := is1.iteration + 1 }.st.totalUsage 0 with
        | some e' =>
          simp only [hcb, Except.error.injEq, Prod.mk.injEq] at h
          obtain ⟨-, his⟩ := h
          subst his
          exfalso
          have : is1.iteration + 1 = is.iteration := hiter
          omega
        | none =>
          simp only [hcb] at h
          cases hck2 : (predicate is1.currentData).ok with
          | true =>
            simp only [hck2, if_true] at h
            cases h
          | false =>
            simp only [hck2, Bool.false_eq_true, if_false] at h
            exfalso
            have h3 := iterLoop_error_iter_mono ctx budget step predicate fuel _ e is' h
            have h4 : is1.iteration + 1 ≤ is'.iteration := h3
            omega

theorem iterLoop_exhaust (ctx : Ctx) (budget : Option Budget) (step : Step)
    (predicate : Value → Check)
    (hp : ∀ d, (predicate d).ok = false)
    (htools : ∀ t ∈ step.tools, ∃ f, ctx.tools t = some f ∧ ∀ d, ∃ o, f d = .ok o)
    (hb : ∀ u, checkBudget budget u 0 = none) :
    ∀ (fuel : Nat) (is : IterSt),
      ∃ is', iterLoop ctx budget step predicate fuel is = .ok is'
        ∧ is'.iteration = is.iteration + fuel
        ∧ is'.st.toolCalls = is.st.toolCalls + fuel * step.tools.length := by
  intro fuel
  induction fuel with
  | zero =>
    intro is
    exact ⟨is, rfl, by omega, by simp⟩
  | succ fuel ih =>
    intro is
    obtain ⟨is1, hrt, hit1, hsd1, htc1⟩ := runTools_all_ok ctx step.tools
      { is with st := { is.st with predCalls := is.st.predCalls + 1 } } htools
    have hit1' : is1.iteration = is.iteration := hit1
    have htc1' : is1.st.toolCalls = is.st.toolCalls + step.tools.length := htc1
    obtain ⟨is', hloop, hit, htc⟩ := ih
      { is1 with
          st := { is1.st with
                    stepData := setKey is1.st.stepData step.name is1.currentData
                    predCalls := is1.st.predCalls + 1 }
          iteration := is1.iteration + 1 }
    refine ⟨is', ?_, ?_, ?_⟩
    · simp only [iterLoop, hp, Bool.false_eq_true, if_false, hrt, hb]
      exact hloop
    · have : is'.iteration = is1.iteration + 1 + fuel := hit
      omega
    · have : is'.st.toolCalls = is1.st.toolCalls + fuel * step.tools.length := htc
      have hmul : (fuel + 1) * step.tools.length
          = fuel * step.tools.length + step.tools.length := by ring
      omega

theorem lookupKV_map_replace {α : Type} (m : List (String × α)) (k : String) (v : α) :
    lookupKV (m.map (fun p => if p.1 = k then (k, v) else p)) k
      = if (lookupKV m k).isSome then some v else none := by
  induction m with
  | nil => rfl
  | cons p rest ih =>
    obtain ⟨k', w⟩ := p
    simp only [List.map_cons]
    by_cases h : k' = k
    · rw [if_pos h]
      subst h
      simp [lookupKV, ih]
    · rw [if_neg h]
      simp [lookupKV, h, ih]

theorem lookupKV_map_replace_ne {α : Type} (m : List (String × α)) (k : String)
    (v : α) (k' : String) (h : k' ≠ k) :
    lookupKV (m.map (fun p => if p.1 = k then (k, v) else p)) k'
      = lookupKV m k' := by
  induction m with
  | nil => rfl
  | cons p rest ih =>
    obtain ⟨k1, w⟩ := p
    simp only [List.map_cons]
    by_cases h1 : k1 = k
    · rw [if_pos h1]
      subst h1
      simp [lookupKV, Ne.symm h, ih]
    · rw [if_neg h1]
      simp [lookupKV, ih]

theorem lookupKV_setKey_self {α : Type} (m : List (String × α)) (k : String) (v : α) :
    lookupKV (setKey m k v) k = some v := by
  unfold setKey
  by_cases h : (lookupKV m k).isSome
  · simp [h, lookupKV_map_replace]
  · rw [if_neg h, lookupKV_append]
    rw [Option.not_isSome_iff_eq_none] at h
    simp [h, lookupKV]

theorem lookupKV_setKey_ne {α : Type} (m : List (String × α)) (k : String) (v : α)
    (k' : String) (h : k' ≠ k) :
    lookupKV (setKey m k v) k' = lookupKV m k' := by
  unfold setKey
  by_cases hs : (lookupKV m k).isSome
  · simp [hs, lookupKV_map_replace_ne m k v k' h]
  · rw [if_neg hs, lookupKV_append]
    cases hm : lookupKV m k' with
    | some w => simp
    | none => simp [lookupKV, Ne.symm h]

theorem jsOrString_of_ne_empty (o : Option String) (d : String) (h : o ≠ some "") :
    jsOrString o d = o.getD d := by
  cases o with
  | none => rfl
  | some s =>
    simp only [jsOrString, Option.getD_some]
    rw [if_neg (fun heq => h (by rw [heq]))]

/-- C3 (amended): on a termination without a runner-level throw the final
working data is published under the step's name; but when a throw (e.g. a
tool failure) ends the step during its first iteration, nothing at all is
published for the step — the data accumulated inside the failing iteration
is lost to dependents. -/
theorem executeStep_publication :
    ∀ (ctx : Ctx) (spec : Spec) (step : Step) (st : ExecState) (run : StepRun)
      (st' : ExecState),
      executeStep ctx spec step st = .ok (run, st') →
      (run.threw = false → lookupKV st'.stepData step.name = some run.finalData)
      ∧ (run.threw = true → run.result.iterations = 0 →
          lookupKV st'.stepData step.name = lookupKV st.stepData step.name) := by
  intro ctx spec step st run st' h
  cases hp : ctx.predicates step.untilName with
  | none =>
    simp only [executeStep, hp] at h
    cases h
  | some predicate =>
    simp only [executeStep, hp] at h
    cases hloop : iterLoop ctx spec.budget step predicate step.maxIter
        ⟨getCurrentData step st.stepData, ⟨0, 0, 0⟩, 0, st⟩ with
    | ok is =>
      simp only [hloop] at h
      cases hfc : (predicate is.currentData).ok with
      | true =>
        simp only [hfc, if_true, Except.ok.injEq, Prod.mk.injEq] at h
        obtain ⟨hr, hs⟩ := h
        subst hr
        subst hs
        refine ⟨fun _ => ?_, fun ht => ?_⟩
        · exact lookupKV_setKey_self _ _ _
        · cases ht
      | false =>
        simp only [hfc, Bool.false_eq_true, if_false, Except.ok.injEq, Prod.mk.injEq] at h
        obtain ⟨hr, hs⟩ := h
        subst hr
        subst hs
        refine ⟨fun _ => ?_, fun ht => ?_⟩
        · exact lookupKV_setKey_self _ _ _
        · cases ht
    | error p =>
      obtain ⟨e, is⟩ := p
      simp only [hloop, Except.ok.injEq, Prod.mk.injEq] at h
      obtain ⟨hr, hs⟩ := h
      subst hr
      subst hs
      refine ⟨fun ht => ?_, fun _ hit => ?_⟩
      · cases ht
      · have hzero : is.iteration = 0 := hit
        have := iterLoop_error_stepData_of_iter_eq ctx spec.budget step predicate
          step.maxIter _ e is hloop (by simpa using hzero)
        rw [this]

/-- Counterexample to C3 as stated: in `specST` the step `S` accumulates
`{a:1}` from its first tool before the second tool fails, yet nothing is
published for `S` (its `stepData` entry is absent), and the dependent `T`
starts from the empty merge instead of `S`'s last working data. -/
theorem executeStep_failure_publishes_nothing :
    (execute ctxDemo specST).runs.map (fun r => (r.result.name, r.startData, r.finalData))
      = [("S", Value.vobj [], Value.vobj [("a", Value.vnum 1)]),
         ("T", Value.vobj [], Value.vobj [])]
    ∧ lookupKV (execute ctxDemo specST).state.stepData "S" = none
    ∧ Value.vobj [("a", Value.vnum 1)] ≠ Value.vobj [] :=
  ⟨rfl, rfl, by simp⟩

/-- Witness for `executeStep_publication`: a successfully terminating step
publishes its final working data under its own name. -/
theorem executeStep_publication_witness :
    lookupKV [("initial", Value.vobj []), ("A", Value.vobj [])] "A"
      = some (Value.vobj []) := by
  exact (executeStep_publication ctxDemo specSingle ⟨"A", "ok", 1, [], none⟩
    stDemo _ _ rfl).1 rfl

/-- C4: a step whose predicate is never satisfied, with resolvable and
always-succeeding tools and no budget breach, runs exactly `maxIter`
iterations and `maxIter * len(tools)` tool invocations, fails without a
throw, and reports the predicate's final reason (or the generic
`Failed after N iterations` message when the predicate reported none). -/
theorem executeStep_exhausts_maxIter :
    ∀ (ctx : Ctx) (spec : Spec) (step : Step) (st : ExecState)
      (predicate : Value → Check),
      ctx.predicates step.untilName = some predicate →
      (∀ d, (predicate d).ok = false) →
      (∀ d, (predicate d).msg ≠ some "") →
      (∀ t ∈ step.tools, ∃ f, ctx.tools t = some f ∧ ∀ d, ∃ o, f d = .ok o) →
      (∀ u, checkBudget spec.budget u 0 = none) →
      (executeStep ctx spec step st).map (fun p =>
          (p.1.result.success, p.1.result.iterations, p.2.toolCalls, p.1.threw))
        = .ok (false, step.maxIter,
               st.toolCalls + step.maxIter * step.tools.length, false)
      ∧ (executeStep ctx spec step st).map (fun p => p.1.result.error)
        = (executeStep ctx spec step st).map (fun p =>
            some (((predicate p.1.finalData).msg).getD
              ("Failed after " ++ toString step.maxIter ++ " iterations"))) := by
  intro ctx spec step st predicate hp hnever hmsg htools hb
  obtain ⟨is, hloop, hit, htc⟩ := iterLoop_exhaust ctx spec.budget step predicate
    hnever htools hb step.maxIter ⟨getCurrentData step st.stepData, ⟨0, 0, 0⟩, 0, st⟩
  have hit' : is.iteration = step.maxIter := by
    have : is.iteration = 0 + step.maxIter := hit
    omega
  have htc' : is.st.toolCalls = st.toolCalls + step.maxIter * step.tools.length := htc
  constructor
  · simp only [executeStep, hp, hloop, hnever, Bool.false_eq_true, if_false, Except.map]
    simp [hit', htc']
  · simp only [executeStep, hp, hloop, hnever, Bool.false_eq_true, if_false, Except.map,
      Except.ok.injEq]
    rw [jsOrString_of_ne_empty _ _ (hmsg _)]
    rw [hit']

/-- Witness for `executeStep_exhausts_maxIter`: the demo exhaustion step
(`maxIter` 2, one tool, predicate never satisfied) fails after exactly 2
iterations and 2 tool calls, reporting the predicate's reason. -/
theorem executeStep_exhausts_maxIter_witness :
    (executeStep ctxDemo specW4 stepW4 stDemo).map (fun p =>
        (p.1.result.success, p.1.result.iterations, p.2.toolCalls, p.1.threw))
      = .ok (false, stepW4.maxIter,
             stDemo.toolCalls + stepW4.maxIter * stepW4.tools.length, false) := by
  exact (executeStep_exhausts_maxIter ctxDemo specW4 stepW4 stDemo predNever rfl
    (fun _ => rfl)
    (fun d h => absurd (Option.some.inj h) (by decide))
    (by intro t ht; fin_cases ht; exact ⟨toolSetA, rfl, fun d => ⟨_, rfl⟩⟩)
    (fun _ => rfl)).1

theorem runSteps_length (ctx : Ctx) (spec : Spec) :
    ∀ (order : List Step) (st : ExecState) (acc : List StepRun),
      (order.foldl
        (fun (acc : ExecState × List StepRun) step =>
          let p := executeStepTop ctx spec step acc.1
          (p.2, acc.2 ++ [p.1]))
        (st, acc)).2.length = acc.length + order.length := by
  intro order
  induction order with
  | nil => intro st acc; simp
  | cons s rest ih =>
    intro st acc
    simp only [List.foldl_cons]
    rw [ih]
    simp
    omega

theorem runSteps_length_eq (ctx : Ctx) (spec : Spec) (order : List Step)
    (st : ExecState) : (runSteps ctx spec order st).2.length = order.length := by
  unfold runSteps
  rw [runSteps_length]
  simp

theorem topoSort_ok_length (steps : List Step) (order : List Step)
    (h : topoSort steps = .ok order) : order.length = steps.length := by
  unfold topoSort at h
  cases hadd : addEdges steps (initMaps steps) with
  | error e =>
    simp only [hadd] at h
    cases h
  | ok bst =>
    simp only [hadd] at h
    split_ifs at h with hc
    cases h
    omega

/-- C1 (amended): once graph building succeeds (`topoSort` returns an order),
`execute` returns a `Result` carrying one `StepResult` per step — step-level
errors only ever surface as data — and a runner-level throw such as an
unknown predicate is converted into a failed `StepResult` with zero
iterations.  (The graph-build errors themselves — dependency cycle, unknown
dependency — escape `execute` as exceptions, see the counterexample.) -/
theorem execute_no_throw_after_graph_build :
    ∀ (ctx : Ctx) (spec : Spec) (order : List Step),
      topoSort spec.steps = .ok order →
      (execute ctx spec).result.map (fun r => r.steps.length)
        = .ok spec.steps.length
      ∧ ∀ (step : Step) (st : ExecState),
        ctx.predicates step.untilName = none →
        (executeStepTop ctx spec step st).1.result
          = ⟨step.name, 0, false, some ("Unknown predicate: " ++ step.untilName), none⟩ := by
  intro ctx spec order hts
  constructor
  · have hlen : order.length = spec.steps.length := topoSort_ok_length spec.steps order hts
    simp only [execute, hts, Except.map]
    rw [List.length_map, runSteps_length_eq, hlen]
  · intro step st hp
    simp only [executeStepTop, executeStep, hp]

/-- Counterexample to C1 as stated: a graph-build error (here an unknown
dependency; a cycle behaves the same) is thrown outside any try/catch in
`execute` (serializer.ts:107) and escapes as a rejection rather than being
surfaced as data in a `Result`. -/
theorem execute_unknown_dependency_escapes :
    (execute ctxDemo specUnknownDep).result = .error "Unknown dependency: ghost" := rfl

/-- Witness for `execute_no_throw_after_graph_build`: the single-step spec
passes graph building and yields a `Result` with one `StepResult`. -/
theorem execute_no_throw_after_graph_build_witness :
    (execute ctxDemo specSingle).result.map (fun r => r.steps.length)
      = .ok specSingle.steps.length := by
  exact (execute_no_throw_after_graph_build ctxDemo specSingle _ rfl).1

theorem stepMapGet_some (steps : List Step) (n : String) (s : Step)
    (h : stepMapGet steps n = some s) : s ∈ steps ∧ s.name = n := by
  unfold stepMapGet at h
  refine ⟨List.mem_of_find?_eq_some h, ?_⟩
  have := List.find?_some h
  simpa using this

theorem stepMapGet_of_mem (steps : List Step) (HN : (stepNames steps).Nodup)
    (s : Step) (hs : s ∈ steps) : stepMapGet steps s.name = some s := by
  induction steps with
  | nil => cases hs
  | cons t rest ih =>
    simp only [stepNames, List.map_cons, List.nodup_cons] at HN
    rcases List.mem_cons.mp hs with h | h
    · subst h
      simp [stepMapGet, List.find?]
    · have hne : ¬(t.name = s.name) := by
        intro heq
        exact HN.1 (heq ▸ List.mem_map_of_mem (fun x => x.name) h)
      unfold stepMapGet
      rw [List.find?_cons_of_neg _ (by simpa using hne)]
      exact ih HN.2 h

theorem name_injective (steps : List Step) (HN : (stepNames steps).Nodup)
    (x y : Step) (hx : x ∈ steps) (hy : y ∈ steps) (h : x.name = y.name) :
    x = y := by
  have h1 := stepMapGet_of_mem steps HN x hx
  have h2 := stepMapGet_of_mem steps HN y hy
  rw [h] at h1
  rw [h1] at h2
  exact Option.some.inj h2

theorem stepMapGet_isSome_of_mem_names (steps : List Step) (n : String)
    (h : n ∈ stepNames steps) : ∃ s, stepMapGet steps n = some s ∧ s.name = n := by
  obtain ⟨s, hs, hn⟩ := List.mem_map.mp h
  induction steps with
  | nil => cases hs
  | cons t rest ih =>
    by_cases ht : t.name = n
    · exact ⟨t, by simp [stepMapGet, List.find?, ht], ht⟩
    · rcases List.mem_cons.mp hs with h1 | h1
      · exact absurd (h1 ▸ hn) ht
      · obtain ⟨s', hfind, hname⟩ := ih (by simp only [stepNames, List.mem_map]; exact ⟨s, h1, hn⟩) h1
        refine ⟨s', ?_, hname⟩
        unfold stepMapGet at hfind ⊢
        rw [List.find?_cons_of_neg _ (by simpa using ht)]
        exact hfind

theorem indexOf_lt_of_mem_take (l : List String) :
    ∀ (i : Nat) (d : String), d ∈ l.take i → l.indexOf d < i := by
  induction l with
  | nil => intro i d hd; simp at hd
  | cons x xs ih =>
    intro i d hd
    cases i with
    | zero => simp at hd
    | succ j =>
      simp only [List.take_succ_cons, List.mem_cons] at hd
      rcases hd with h | h
      · subst h
        simp [List.indexOf_cons_self]
      · by_cases hx : d = x
        · subst hx
          simp [List.indexOf_cons_self]
        · rw [List.indexOf_cons_ne _ (fun heq => hx heq.symm)]
          exact Nat.succ_lt_succ (ih j d h)

theorem indexOf_get_of_nodup (l : List String) :
    ∀ (hn : l.Nodup) (i : Nat) (hi : i < l.length),
      l.indexOf (l.get ⟨i, hi⟩) = i := by
  induction l with
  | nil => intro _ i hi; simp at hi
  | cons x xs ih =>
    intro hn i hi
    cases i with
    | zero => simp [List.indexOf_cons_self]
    | succ j =>
      simp only [List.nodup_cons] at hn
      have hmem : xs.get ⟨j, by simpa using hi⟩ ∈ xs := List.get_mem _ _ _
      have hne : xs.get ⟨j, by simpa using hi⟩ ≠ x := by
        intro heq
        exact hn.1 (heq ▸ hmem)
      simp only [List.get_cons_succ]
      rw [List.indexOf_cons_ne _ (fun heq => hne heq.symm)]
      rw [ih hn.2 j _]

theorem filter_notMem_append_of_not_mem (l N : List String) (a : String)
    (ha : a ∉ l) :
    l.filter (fun d => decide (d ∉ N ++ [a])) = l.filter (fun d => decide (d ∉ N)) := by
  induction l with
  | nil => rfl
  | cons x xs ih =>
    have hxa : x ≠ a := fun h => ha (h ▸ List.mem_cons_self x xs)
    have hxs : a ∉ xs := fun h => ha (List.mem_cons_of_mem x h)
    simp only [List.filter_cons]
    have : (x ∉ N ++ [a]) ↔ (x ∉ N) := by
      simp [List.mem_append, hxa]
    by_cases hx : x ∈ N
    · simp only [decide_eq_true_eq]
      rw [if_neg (by simp [this, hx]), if_neg (by simp [hx])]
      exact ih hxs
    · simp only [decide_eq_true_eq]
      rw [if_pos (by simp [hx, hxa]), if_pos (by simp [hx])]
      rw [ih hxs]

theorem filter_notMem_append_length (l N : List String) (a : String)
    (hnd : l.Nodup) (ha : a ∈ l) (haN : a ∉ N) :
    (l.filter (fun d => decide (d ∉ N ++ [a]))).length + 1
      = (l.filter (fun d => decide (d ∉ N))).length := by
  induction l with
  | nil => cases ha
  | cons x xs ih =>
    simp only [List.nodup_cons] at hnd
    simp only [List.filter_cons]
    rcases List.mem_cons.mp ha with h | h
    · subst h
      rw [if_neg (by simp), if_pos (by simpa using haN)]
      rw [filter_notMem_append_of_not_mem xs N _ hnd.1]
      simp
    · have hxa : x ≠ a := by
        intro heq
        exact hnd.1 (heq ▸ h)
      by_cases hx : x ∈ N
      · rw [if_neg (by simp [hx]), if_neg (by simp [hx])]
        exact ih hnd.2 h
      · rw [if_pos (by simp [hx, hxa]), if_pos (by simp [hx])]
        simp only [List.length_cons]
        have := ih hnd.2 h
        omega

theorem nodup_subset_length_le {α : Type} [DecidableEq α] (l l' : List α)
    (hn : l.Nodup) (hsub : ∀ a ∈ l, a ∈ l') : l.length ≤ l'.length := by
  calc l.length = l.toFinset.card := (List.toFinset_card_of_nodup hn).symm
    _ ≤ l'.toFinset.card := Finset.card_le_card (by
        intro a ha
        rw [List.mem_toFinset] at ha
        rw [List.mem_toFinset]
        exact hsub a ha)
    _ ≤ l'.length := l'.toFinset_card_le

theorem nodup_subset_full {α : Type} [DecidableEq α] (l l' : List α)
    (hn : l.Nodup) (hn' : l'.Nodup) (hsub : ∀ a ∈ l, a ∈ l')
    (hlen : l'.length ≤ l.length) : ∀ a ∈ l', a ∈ l := by
  intro a ha
  by_contra hcon
  have : (a :: l).length ≤ l'.length :=
    nodup_subset_length_le (a :: l) l' (List.nodup_cons.mpr ⟨hcon, hn⟩)
      (by intro b hb
          rcases List.mem_cons.mp hb with h | h
          · exact h ▸ ha
          · exact hsub b h)
  simp at this
  omega

theorem initMaps_go (steps : List Step) :
    ∀ (acc : BuildSt) (n : String),
      ((steps.foldl
        (fun st step =>
          ⟨updFun st.inDegree step.name 0, updFun st.graph step.name []⟩)
        acc).inDegree n
        = if n ∈ stepNames steps then some 0 else acc.inDegree n)
      ∧ ((steps.foldl
        (fun st step =>
          ⟨updFun st.inDegree step.name 0, updFun st.graph step.name []⟩)
        acc).graph n
        = if n ∈ stepNames steps then some [] else acc.graph n) := by
  induction steps with
  | nil => intro acc n; simp [stepNames]
  | cons s rest ih =>
    intro acc n
    simp only [List.foldl_cons]
    have hcons : stepNames (s :: rest) = s.name :: stepNames rest := rfl
    have := ih ⟨updFun acc.inDegree s.name 0, updFun acc.graph s.name []⟩ n
    rw [this.1, this.2, hcons]
    by_cases hr : n ∈ stepNames rest
    · rw [if_pos hr, if_pos hr, if_pos (List.mem_cons_of_mem _ hr),
        if_pos (List.mem_cons_of_mem _ hr)]
      exact ⟨rfl, rfl⟩
    · rw [if_neg hr, if_neg hr]
      by_cases hs : n = s.name
      · rw [if_pos (by rw [hs]; exact List.mem_cons_self _ _),
          if_pos (by rw [hs]; exact List.mem_cons_self _ _)]
        simp [updFun, hs]
      · rw [if_neg (by simp [hs, hr]), if_neg (by simp [hs, hr])]
        simp [updFun, hs]

theorem initMaps_inDegree (steps : List Step) (n : String) :
    (initMaps steps).inDegree n = if n ∈ stepNames steps then some 0 else none := by
  unfold initMaps
  rw [(initMaps_go steps ⟨fun _ => none, fun _ => none⟩ n).1]

theorem initMaps_graph (steps : List Step) (n : String) :
    (initMaps steps).graph n = if n ∈ stepNames steps then some [] else none := by
  unfold initMaps
  rw [(initMaps_go steps ⟨fun _ => none, fun _ => none⟩ n).2]

theorem addEdges_inner (stepName : String) :
    ∀ (ds : List String) (st : BuildSt),
      ds.Nodup → (∀ d ∈ ds, (st.graph d).isSome) →
      ∃ st2,
        ds.foldlM
          (fun (st : BuildSt) dep =>
            match st.graph dep with
            | none => Except.error ("Unknown dependency: " ++ dep)
            | some lst =>
              Except.ok (⟨updFun st.inDegree stepName ((st.inDegree stepName).getD 0 + 1),
                   updFun st.graph dep (lst ++ [stepName])⟩ : BuildSt))
          st = Except.ok st2
        ∧ (∀ n, n ≠ stepName → st2.inDegree n = st.inDegree n)
        ∧ ((st.inDegree stepName).isSome →
            st2.inDegree stepName
              = some ((st.inDegree stepName).getD 0 + (ds.length : Int)))
        ∧ (∀ d, st2.graph d
            = if d ∈ ds then (st.graph d).map (fun lst => lst ++ [stepName])
              else st.graph d) := by
  intro ds
  induction ds with
  | nil =>
    intro st _ _
    refine ⟨st, rfl, fun n _ => rfl, fun hs => ?_, fun d => by simp⟩
    obtain ⟨k, hk⟩ := Option.isSome_iff_exists.mp hs
    simp [hk]
  | cons d rest ih =>
    intro st hnd hdom
    simp only [List.nodup_cons] at hnd
    obtain ⟨lst, hlst⟩ := Option.isSome_iff_exists.mp (hdom d (by simp))
    have hdom' : ∀ d' ∈ rest,
        ((⟨updFun st.inDegree stepName ((st.inDegree stepName).getD 0 + 1),
            updFun st.graph d (lst ++ [stepName])⟩ : BuildSt).graph d').isSome := by
      intro d' hd'
      simp only [updFun]
      by_cases hdd : d' = d
      · simp [hdd]
      · simp only [if_neg hdd]
        exact hdom d' (by simp [hd'])
    obtain ⟨st2, heq, hdeg_ne, hdeg, hgraph⟩ := ih
      ⟨updFun st.inDegree stepName ((st.inDegree stepName).getD 0 + 1),
        updFun st.graph d (lst ++ [stepName])⟩ hnd.2 hdom'
    refine ⟨st2, ?_, ?_, ?_, ?_⟩
    · simp only [List.foldlM_cons, hlst]
      exact heq
    · intro n hn
      rw [hdeg_ne n hn]
      simp [updFun, hn]
    · intro _
      rw [hdeg (by simp [updFun])]
      simp only [updFun, if_pos rfl, Option.getD_some, List.length_cons,
        Option.some.injEq]
      push_cast
      simp only [Option.getD_some]
      ring
    · intro d'
      rw [hgraph d']
      by_cases h1 : d' ∈ rest
      · have hne : d' ≠ d := fun h => hnd.1 (h ▸ h1)
        simp [h1, hne, updFun]
      · by_cases h2 : d' = d
        · subst h2
          simp [h1, updFun, hlst]
        · simp [h1, h2, updFun]

theorem addEdges_go :
    ∀ (L : List Step) (st : BuildSt),
      (L.map (fun s => s.name)).Nodup →
      (∀ s ∈ L, (depsOf s).Nodup) →
      (∀ s ∈ L, ∀ d ∈ depsOf s, (st.graph d).isSome) →
      (∀ s ∈ L, (st.inDegree s.name).isSome) →
      ∃ bst, addEdges L st = .ok bst
        ∧ (∀ n, bst.inDegree n
            = match stepMapGet L n with
              | some s => some ((st.inDegree n).getD 0 + ((depsOf s).length : Int))
              | none => st.inDegree n)
        ∧ (∀ d, bst.graph d
            = (st.graph d).map (fun lst =>
                lst ++ (L.filter (fun s => decide (d ∈ depsOf s))).map (fun s => s.name))) := by
  intro L
  induction L with
  | nil =>
    intro st _ _ _ _
    refine ⟨st, rfl, fun n => rfl, fun d => ?_⟩
    cases st.graph d <;> simp [stepMapGet]
  | cons s rest ih =>
    intro st hnames hdnd hdom hdeg
    simp only [List.map_cons, List.nodup_cons] at hnames
    obtain ⟨st1, hinner, hdeg_ne, hdeg_self, hgraph1⟩ := addEdges_inner s.name
      (depsOf s) st (hdnd s (by simp)) (hdom s (by simp))
    have hdom' : ∀ s' ∈ rest, ∀ d ∈ depsOf s', (st1.graph d).isSome := by
      intro s' hs' d hd
      rw [hgraph1 d]
      by_cases h : d ∈ depsOf s
      · simp only [if_pos h]
        have := hdom s (by simp) d h
        obtain ⟨lst, hl⟩ := Option.isSome_iff_exists.mp this
        simp [hl]
      · simp only [if_neg h]
        exact hdom s' (by simp [hs']) d hd
    have hdeg' : ∀ s' ∈ rest, (st1.inDegree s'.name).isSome := by
      intro s' hs'
      have hne : s'.name ≠ s.name := by
        intro heq
        exact hnames.1 (heq ▸ List.mem_map_of_mem (fun x => x.name) hs')
      rw [hdeg_ne s'.name hne]
      exact hdeg s' (by simp [hs'])
    obtain ⟨bst, heq, hdegF, hgraphF⟩ := ih st1 hnames.2 (fun s' h => hdnd s' (by simp [h]))
      hdom' hdeg'
    have hstep : addEdges (s :: rest) st = addEdges rest st1 := by
      unfold addEdges
      rw [List.foldlM_cons, hinner]
      rfl
    refine ⟨bst, by rw [hstep]; exact heq, ?_, ?_⟩
    · intro n
      rw [hdegF n]
      by_cases hn : s.name = n
      · subst hn
        have hrest : stepMapGet rest s.name = none := by
          unfold stepMapGet
          rw [List.find?_eq_none]
          intro s' hs'
          simp only [decide_eq_true_eq]
          intro heq
          exact hnames.1 (heq ▸ List.mem_map_of_mem (fun x => x.name) hs')
        rw [hrest]
        have hself : stepMapGet (s :: rest) s.name = some s := by
          simp [stepMapGet, List.find?]
        rw [hself]
        exact hdeg_self (hdeg s (by simp))
      · have hcons : stepMapGet (s :: rest) n = stepMapGet rest n := by
          unfold stepMapGet
          rw [List.find?_cons_of_neg _ (by simpa using hn)]
        rw [hcons]
        cases hfind : stepMapGet rest n with
        | none => rw [hdeg_ne n (fun h => hn h.symm)]
        | some s' =>
          rw [hdeg_ne n (fun h => hn h.symm)]
    · intro d
      rw [hgraphF d, hgraph1 d]
      by_cases h : d ∈ depsOf s
      · simp only [if_pos h, List.filter_cons, decide_eq_true h]
        cases st.graph d with
        | none => rfl
        | some lst => simp
      · simp only [if_neg h, List.filter_cons]
        rw [decide_eq_false h]
        cases st.graph d with
        | none => rfl
        | some lst => simp

theorem addEdges_char (steps : List Step)
    (HN : (stepNames steps).Nodup)
    (HD : ∀ s ∈ steps, (depsOf s).Nodup)
    (HK : ∀ s ∈ steps, ∀ d ∈ depsOf s, d ∈ stepNames steps) :
    ∃ bst, addEdges steps (initMaps steps) = .ok bst
      ∧ (∀ s ∈ steps, bst.inDegree s.name = some ((depsOf s).length : Int))
      ∧ (∀ n, n ∉ stepNames steps → bst.inDegree n = none)
      ∧ (∀ s ∈ steps, bst.graph s.name = some (dependentsOf steps s.name))
      ∧ (∀ n, n ∉ stepNames steps → bst.graph n = none) := by
  have HN' : (steps.map (fun s => s.name)).Nodup := HN
  obtain ⟨bst, heq, hdeg, hgraph⟩ := addEdges_go steps (initMaps steps) HN' HD
    (by intro s hs d hd
        rw [initMaps_graph]
        simp [HK s hs d hd])
    (by intro s hs
        rw [initMaps_inDegree]
        simp [List.mem_map_of_mem (fun x => x.name) hs, stepNames])
  refine ⟨bst, heq, ?_, ?_, ?_, ?_⟩
  · intro s hs
    have hmem : s.name ∈ stepNames steps := List.mem_map_of_mem (fun x => x.name) hs
    rw [hdeg s.name, stepMapGet_of_mem steps HN s hs, initMaps_inDegree]
    rw [if_pos hmem]
    simp
  · intro n hn
    have hfind : stepMapGet steps n = none := by
      unfold stepMapGet
      rw [List.find?_eq_none]
      intro s hs
      simp only [decide_eq_true_eq]
      intro heq
      exact hn (heq ▸ List.mem_map_of_mem (fun x => x.name) hs)
    rw [hdeg n, hfind, initMaps_inDegree, if_neg hn]
  · intro s hs
    have hmem : s.name ∈ stepNames steps := List.mem_map_of_mem (fun x => x.name) hs
    rw [hgraph s.name, initMaps_graph, if_pos hmem]
    simp [dependentsOf]
  · intro n hn
    rw [hgraph n, initMaps_graph, if_neg hn]
    rfl

theorem filterMap_if_eq_filter {α : Type} (p : α → Prop) [DecidablePred p]
    (l : List α) :
    l.filterMap (fun a => if p a then some a else none)
      = l.filter (fun a => decide (p a)) := by
  induction l with
  | nil => rfl
  | cons x xs ih =>
    simp only [List.filterMap_cons, List.filter_cons]
    by_cases h : p x
    · simp [h, ih]
    · simp [h, ih]

theorem initQueue_char (steps : List Step) (bst : BuildSt)
    (HN : (stepNames steps).Nodup)
    (hdeg : ∀ s ∈ steps, bst.inDegree s.name = some ((depsOf s).length : Int)) :
    initQueue steps bst.inDegree = steps.filter (fun s => decide (depsOf s = [])) := by
  unfold initQueue
  rw [List.filterMap_map]
  rw [List.filterMap_congr (g := fun s => if depsOf s = [] then some s else none) ?_]
  · exact filterMap_if_eq_filter _ steps
  · intro s hs
    simp only [Function.comp]
    rw [hdeg s hs, stepMapGet_of_mem steps HN s hs]
    by_cases h : depsOf s = []
    · rw [if_pos (by simp [h]), if_pos h]
    · rw [if_neg ?_, if_neg h]
      simp only [Option.some.injEq]
      intro heq
      have : (depsOf s).length = 0 := by exact_mod_cast heq
      exact h (List.length_eq_zero.mp this)

theorem processDependents_char (stepMap : String → Option Step) :
    ∀ (D : List String) (queue : List Step) (inDegree : String → Option Int),
      D.Nodup →
      processDependents stepMap D queue inDegree
        = (queue ++ D.filterMap (fun m =>
             if (inDegree m).getD 0 - 1 = 0 then stepMap m else none),
           fun x => if x ∈ D then some ((inDegree x).getD 0 - 1) else inDegree x) := by
  intro D
  induction D with
  | nil =>
    intro queue inDegree _
    refine Prod.ext ?_ ?_
    · simp [processDependents]
    · funext x
      simp [processDependents]
  | cons m rest ih =>
    intro queue inDegree hnd
    simp only [List.nodup_cons] at hnd
    have hstep : processDependents stepMap (m :: rest) queue inDegree
        = processDependents stepMap rest
            (if (inDegree m).getD 0 - 1 = 0 then
              match stepMap m with
              | some s => queue ++ [s]
              | none => queue
             else queue)
            (updFun inDegree m ((inDegree m).getD 0 - 1)) := by
      unfold processDependents
      simp only [List.foldl_cons]
      by_cases hc : (inDegree m).getD 0 - 1 = 0
      · rw [if_pos hc]
        cases stepMap m <;> simp [hc]
      · rw [if_neg hc]
        simp [hc]
    rw [hstep, ih _ _ hnd.2]
    refine Prod.ext ?_ ?_
    · simp only
      have hfm : rest.filterMap (fun m' =>
          if ((updFun inDegree m ((inDegree m).getD 0 - 1)) m').getD 0 - 1 = 0 then
            stepMap m' else none)
          = rest.filterMap (fun m' =>
            if (inDegree m').getD 0 - 1 = 0 then stepMap m' else none) := by
        apply List.filterMap_congr
        intro m' hm'
        have hne : m' ≠ m := fun h => hnd.1 (h ▸ hm')
        simp [updFun, hne]
      rw [hfm]
      simp only [List.filterMap_cons]
      by_cases hc : (inDegree m).getD 0 - 1 = 0
      · rw [if_pos hc, if_pos hc]
        cases stepMap m <;> simp
      · rw [if_neg hc, if_neg hc]
    · simp only
      funext x
      by_cases hx : x = m
      · subst hx
        have : x ∉ rest := hnd.1
        simp [this, updFun, List.mem_cons]
      · by_cases hr : x ∈ rest
        · simp [hr, hx, updFun, List.mem_cons]
        · simp [hr, hx, updFun, List.mem_cons]

theorem dependentsOf_nodup (steps : List Step) (HN : (stepNames steps).Nodup)
    (cn : String) : (dependentsOf steps cn).Nodup := by
  unfold dependentsOf
  exact List.Nodup.sublist (List.Sublist.map _ (List.filter_sublist steps)) HN

theorem mem_dependentsOf (steps : List Step) (cn m : String) :
    m ∈ dependentsOf steps cn ↔ ∃ s ∈ steps, s.name = m ∧ cn ∈ depsOf s := by
  unfold dependentsOf
  simp only [List.mem_map, List.mem_filter, decide_eq_true_eq]
  constructor
  · rintro ⟨s, ⟨hs, hd⟩, hn⟩
    exact ⟨s, hs, hn, hd⟩
  · rintro ⟨s, hs, hn, hd⟩
    exact ⟨s, ⟨hs, hd⟩, hn⟩

theorem filterMap_names_sublist (f : String → Option Step)
    (hf : ∀ m x, f m = some x → x.name = m) :
    ∀ D : List String, List.Sublist ((D.filterMap f).map (fun s => s.name)) D := by
  intro D
  induction D with
  | nil => simp
  | cons m rest ih =>
    simp only [List.filterMap_cons]
    cases hm : f m with
    | none => exact List.Sublist.cons m ih
    | some x =>
      simp only [List.map_cons]
      rw [hf m x hm]
      exact List.Sublist.cons₂ m ih

theorem filter_subset_nil (l N N' : List String)
    (hsub : ∀ d, d ∈ N → d ∈ N')
    (h : l.filter (fun d => decide (d ∉ N)) = []) :
    l.filter (fun d => decide (d ∉ N')) = [] := by
  rw [List.filter_eq_nil_iff] at h ⊢
  intro a ha
  simp only [decide_eq_true_eq, not_not] at h ⊢
  exact hsub a (h a ha)

theorem kahnInv_preserved (steps : List Step)
    (HN : (stepNames steps).Nodup)
    (HD : ∀ s ∈ steps, (depsOf s).Nodup)
    (c : Step) (queue : List Step) (inDegree : String → Option Int)
    (result : List Step)
    (hInv : KahnInv steps (c :: queue) inDegree result) :
    KahnInv steps
      (queue ++ (dependentsOf steps c.name).filterMap (fun m =>
        if (inDegree m).getD 0 - 1 = 0 then stepMapGet steps m else none))
      (fun x => if x ∈ dependentsOf steps c.name
        then some ((inDegree x).getD 0 - 1) else inDegree x)
      (result ++ [c]) := by
  obtain ⟨⟨hnd, hmem⟩, hdeg, hwait, hresp, hready⟩ := hInv
  have hcmem : c ∈ steps := hmem c (by simp)
  have hnd' : ((result.map (fun s => s.name))
      ++ (c.name :: queue.map (fun s => s.name))).Nodup := by
    have : (result ++ c :: queue).map (fun s => s.name)
        = result.map (fun s => s.name) ++ (c.name :: queue.map (fun s => s.name)) := by
      simp
    rw [← this]
    exact hnd
  have hdisj := List.disjoint_of_nodup_append hnd'
  have hcN_not_res : c.name ∉ result.map (fun s => s.name) := by
    intro hc
    exact hdisj hc (by simp)
  have hcqn : (c.name :: queue.map (fun s => s.name)).Nodup :=
    (List.nodup_append.mp hnd').2.1
  have hresN_nodup : (result.map (fun s => s.name)).Nodup :=
    (List.nodup_append.mp hnd').1
  have hcdeps : ∀ d ∈ depsOf c, d ∈ result.map (fun s => s.name) := by
    intro d hd
    by_contra hcon
    have hmem1 : d ∈ (depsOf c).filter
        (fun d => decide (d ∉ result.map (fun s => s.name))) :=
      List.mem_filter.mpr ⟨hd, by simpa using hcon⟩
    rw [hready c (by simp)] at hmem1
    cases hmem1
  have hresp_mem : ∀ x ∈ result, ∀ d ∈ depsOf x,
      d ∈ result.map (fun s => s.name) := by
    intro x hx d hd
    obtain ⟨i, hig⟩ := List.mem_iff_get.mp hx
    have h1 := hresp i.1 i.2 d (by rw [hig]; exact hd)
    have hsub : List.Sublist ((result.take i.1).map (fun s => s.name))
        (result.map (fun s => s.name)) :=
      List.Sublist.map _ (List.take_sublist _ _)
    exact hsub.subset h1
  have hqdeps : ∀ x ∈ queue, ∀ d ∈ depsOf x,
      d ∈ result.map (fun s => s.name) := by
    intro x hx d hd
    by_contra hcon
    have hmem1 : d ∈ (depsOf x).filter
        (fun d => decide (d ∉ result.map (fun s => s.name))) :=
      List.mem_filter.mpr ⟨hd, by simpa using hcon⟩
    rw [hready x (by simp [hx])] at hmem1
    cases hmem1
  have hDnotany : ∀ m ∈ dependentsOf steps c.name,
      m ∉ result.map (fun s => s.name) ∧ m ≠ c.name
        ∧ m ∉ queue.map (fun s => s.name) := by
    intro m hm
    obtain ⟨sm, hsm, hsmn, hsmd⟩ := (mem_dependentsOf steps c.name m).mp hm
    refine ⟨?_, ?_, ?_⟩
    · intro hres
      obtain ⟨x, hx, hxn⟩ := List.mem_map.mp hres
      have hxeq : x = sm := name_injective steps HN x sm (hmem x (by simp [hx]))
        hsm (by rw [hxn, hsmn])
      subst hxeq
      exact absurd (hresp_mem x hx c.name hsmd) hcN_not_res
    · intro heq
      have : sm = c := name_injective steps HN sm c hsm hcmem (by rw [hsmn, heq])
      subst this
      exact absurd (hcdeps sm.name (hsmn ▸ hsmd)) hcN_not_res
    · intro hq
      obtain ⟨x, hx, hxn⟩ := List.mem_map.mp hq
      have hxeq : x = sm := name_injective steps HN x sm
        (hmem x (by simp [hx])) hsm (by rw [hxn, hsmn])
      subst hxeq
      exact absurd (hqdeps x hx c.name hsmd) hcN_not_res
  have hpushf : ∀ (m : String) (x : Step),
      (if (inDegree m).getD 0 - 1 = 0 then stepMapGet steps m else none) = some x →
      x.name = m := by
    intro m x h
    by_cases hc : (inDegree m).getD 0 - 1 = 0
    · rw [if_pos hc] at h
      exact (stepMapGet_some steps m x h).2
    · rw [if_neg hc] at h
      cases h
  have hpushmem : ∀ x ∈ (dependentsOf steps c.name).filterMap (fun m =>
      if (inDegree m).getD 0 - 1 = 0 then stepMapGet steps m else none),
      x ∈ steps ∧ x.name ∈ dependentsOf steps c.name
        ∧ (inDegree x.name).getD 0 - 1 = 0 := by
    intro x hx
    obtain ⟨m, hmD, hfm⟩ := List.mem_filterMap.mp hx
    by_cases hc : (inDegree m).getD 0 - 1 = 0
    · rw [if_pos hc] at hfm
      obtain ⟨hxs, hxn⟩ := stepMapGet_some steps m x hfm
      subst hxn
      exact ⟨hxs, hmD, hc⟩
    · rw [if_neg hc] at hfm
      cases hfm
  have hpushN_sub : List.Sublist
      (((dependentsOf steps c.name).filterMap (fun m =>
        if (inDegree m).getD 0 - 1 = 0 then stepMapGet steps m else none)).map
          (fun s => s.name))
      (dependentsOf steps c.name) :=
    filterMap_names_sublist _ hpushf _
  have hpushN_nodup := List.Nodup.sublist hpushN_sub (dependentsOf_nodup steps HN c.name)
  refine ⟨⟨?_, ?_⟩, ?_, ?_, ?_, ?_⟩
  · -- Nodup of the new emitted ++ queued names
    simp only [List.map_append, List.map_cons, List.map_nil]
    rw [List.append_assoc, List.singleton_append]
    rw [List.nodup_append]
    refine ⟨hresN_nodup, ?_, ?_⟩
    · rw [List.nodup_cons]
      constructor
      · simp only [List.mem_append]
        rintro (hq | hp)
        · exact (List.nodup_cons.mp hcqn).1 hq
        · obtain ⟨x, hx, hxn⟩ := List.mem_map.mp hp
          exact ((hDnotany x.name (hpushmem x hx).2.1).2.1) hxn
      · rw [List.nodup_append]
        refine ⟨(List.nodup_cons.mp hcqn).2, hpushN_nodup, ?_⟩
        rw [List.disjoint_right]
        intro m hp
        obtain ⟨x, hx, hxn⟩ := List.mem_map.mp hp
        subst hxn
        exact (hDnotany x.name (hpushmem x hx).2.1).2.2
    · rw [List.disjoint_cons_right, List.disjoint_append_right]
      refine ⟨hcN_not_res, ?_, ?_⟩
      · intro m hres hq
        exact hdisj hres (by simp [hq])
      · rw [List.disjoint_right]
        intro m hp
        obtain ⟨x, hx, hxn⟩ := List.mem_map.mp hp
        subst hxn
        exact (hDnotany x.name (hpushmem x hx).2.1).1
  · -- membership in steps
    intro x hx
    simp only [List.mem_append, List.mem_cons] at hx
    rcases hx with (hx | hx) | hx | hx
    · exact hmem x (by simp [hx])
    · simp only [List.mem_nil_iff, or_false] at hx
      subst hx
      exact hcmem
    · exact hmem x (by simp [hx])
    · exact (hpushmem x hx).1
  · -- degree formula
    intro s hs
    dsimp only
    have hresN' : (result ++ [c]).map (fun st => st.name)
        = result.map (fun st => st.name) ++ [c.name] := by simp
    rw [hresN']
    by_cases hD : s.name ∈ dependentsOf steps c.name
    · obtain ⟨sm, hsm, hsmn, hsmd⟩ := (mem_dependentsOf steps c.name s.name).mp hD
      have : sm = s := name_injective steps HN sm s hsm hs hsmn
      subst this
      have hcnt := filter_notMem_append_length (depsOf sm)
        (result.map (fun st => st.name)) c.name (HD sm hs) hsmd hcN_not_res
      rw [if_pos hD, hdeg sm hs]
      simp only [Option.getD_some, Option.some.injEq]
      push_cast [← hcnt]
      ring
    · have hnd2 : c.name ∉ depsOf s := by
        intro hcd
        exact hD ((mem_dependentsOf steps c.name s.name).mpr ⟨s, hs, rfl, hcd⟩)
      rw [if_neg hD, filter_notMem_append_of_not_mem _ _ _ hnd2]
      exact hdeg s hs
  · -- waiting steps still have an unemitted dependency
    intro s hs hnot hnil
    have hresN' : (result ++ [c]).map (fun st => st.name)
        = result.map (fun st => st.name) ++ [c.name] := by simp
    rw [hresN'] at hnil
    by_cases hcd : c.name ∈ depsOf s
    · have hD : s.name ∈ dependentsOf steps c.name :=
        (mem_dependentsOf steps c.name s.name).mpr ⟨s, hs, rfl, hcd⟩
      have hcnt := filter_notMem_append_length (depsOf s)
        (result.map (fun st => st.name)) c.name (HD s hs) hcd hcN_not_res
      have hlen0 : ((depsOf s).filter (fun d => decide (d ∉
          result.map (fun st => st.name) ++ [c.name]))).length = 0 := by
        rw [hnil]; rfl
      have hcond : (inDegree s.name).getD 0 - 1 = 0 := by
        rw [hdeg s hs]
        simp only [Option.getD_some]
        omega
      have hpushed : s ∈ (dependentsOf steps c.name).filterMap (fun m =>
          if (inDegree m).getD 0 - 1 = 0 then stepMapGet steps m else none) :=
        List.mem_filterMap.mpr ⟨s.name, hD,
          by rw [if_pos hcond]; exact stepMapGet_of_mem steps HN s hs⟩
      apply hnot
      exact List.mem_map_of_mem (fun st => st.name)
        (List.mem_append_right _ (List.mem_append_right _ hpushed))
    · rw [filter_notMem_append_of_not_mem _ _ _ hcd] at hnil
      apply hwait s hs ?_ hnil
      intro hold
      apply hnot
      simp only [List.map_append, List.map_cons, List.mem_append, List.mem_cons,
        List.mem_map] at hold ⊢
      rcases hold with hold | hold | hold
      · exact Or.inl (Or.inl hold)
      · exact Or.inl (Or.inr (by simp [hold]))
      · exact Or.inr (Or.inl hold)
  · -- emitted steps respect edges
    intro i hi d hd
    simp only [List.length_append, List.length_cons, List.length_nil] at hi
    by_cases hlt : i < result.length
    · have hget : (result ++ [c]).get ⟨i, by simpa using hi⟩
          = result.get ⟨i, hlt⟩ := List.get_append i hlt
      rw [hget] at hd
      have htake : (result ++ [c]).take i = result.take i :=
        List.take_append_of_le_length (Nat.le_of_lt hlt)
      rw [htake]
      exact hresp i hlt d hd
    · have hieq : i = result.length := by omega
      subst hieq
      have hget : (result ++ [c]).get ⟨result.length, by simpa using hi⟩ = c := by
        rw [List.get_eq_getElem]
        exact List.getElem_concat_length result c _ rfl _
      rw [hget] at hd
      have htake : (result ++ [c]).take result.length = result := by
        rw [List.take_append_of_le_length (Nat.le_refl _), List.take_length]
      rw [htake]
      exact hcdeps d hd
  · -- queued steps are ready
    intro x hx
    have hresN' : (result ++ [c]).map (fun st => st.name)
        = result.map (fun st => st.name) ++ [c.name] := by simp
    rw [hresN']
    rcases List.mem_append.mp hx with hq | hp
    · exact filter_subset_nil _ _ _ (fun d hd => List.mem_append_left _ hd)
        (hready x (by simp [hq]))
    · obtain ⟨hxs, hxD, hxcond⟩ := hpushmem x hp
      obtain ⟨sm, hsm, hsmn, hsmd⟩ := (mem_dependentsOf steps c.name x.name).mp hxD
      have : sm = x := name_injective steps HN sm x hsm hxs hsmn
      subst this
      have hcnt := filter_notMem_append_length (depsOf sm)
        (result.map (fun st => st.name)) c.name (HD sm hxs) hsmd hcN_not_res
      rw [hdeg sm hxs] at hxcond
      simp only [Option.getD_some] at hxcond
      have : ((depsOf sm).filter (fun d => decide (d ∉
          result.map (fun st => st.name) ++ [c.name]))).length = 0 := by omega
      exact List.length_eq_zero.mp this

theorem kahnLoop_main (steps : List Step)
    (HN : (stepNames steps).Nodup)
    (HD : ∀ s ∈ steps, (depsOf s).Nodup)
    (graph : String → Option (List String))
    (hgraph : ∀ s ∈ steps, graph s.name = some (dependentsOf steps s.name)) :
    ∀ (fuel : Nat) (queue : List Step) (inDegree : String → Option Int)
      (result : List Step),
      KahnInv steps queue inDegree result →
      steps.length ≤ fuel + result.length →
      ∀ R, kahnLoop graph (stepMapGet steps) fuel queue inDegree result = R →
        (R.map (fun s => s.name)).Nodup
        ∧ (∀ x ∈ R, x ∈ steps)
        ∧ (∀ (i : Nat) (hi : i < R.length), ∀ d ∈ depsOf (R.get ⟨i, hi⟩),
            d ∈ (R.take i).map (fun s => s.name))
        ∧ (∀ s ∈ steps, s.name ∉ R.map (fun s => s.name) →
            ∃ d ∈ depsOf s, d ∉ R.map (fun s => s.name)) := by
  intro fuel
  induction fuel with
  | zero =>
    intro queue inDegree result hInv hfuel R hR
    obtain ⟨⟨hnd, hmem⟩, hdeg, hwait, hresp, hready⟩ := hInv
    simp only [kahnLoop] at hR
    subst hR
    have hndR : (result.map (fun s => s.name)).Nodup := by
      rw [List.map_append] at hnd
      exact (List.nodup_append.mp hnd).1
    have hmemR : ∀ x ∈ result, x ∈ steps := fun x hx =>
      hmem x (List.mem_append_left _ hx)
    refine ⟨hndR, hmemR, hresp, ?_⟩
    intro s hs hnot
    exfalso
    apply hnot
    have hfull := nodup_subset_full (result.map (fun s => s.name)) (stepNames steps)
      hndR HN
      (by intro a ha
          obtain ⟨x, hx, hxn⟩ := List.mem_map.mp ha
          exact hxn ▸ List.mem_map_of_mem (fun s => s.name) (hmemR x hx))
      (by simpa [stepNames] using hfuel)
    exact hfull s.name (List.mem_map_of_mem (fun s => s.name) hs)
  | succ fuel ih =>
    intro queue inDegree result hInv hfuel R hR
    cases queue with
    | nil =>
      obtain ⟨⟨hnd, hmem⟩, hdeg, hwait, hresp, hready⟩ := hInv
      simp only [kahnLoop] at hR
      subst hR
      have hndR : (result.map (fun s => s.name)).Nodup := by
        simpa using hnd
      refine ⟨hndR, fun x hx => hmem x (List.mem_append_left _ hx), hresp, ?_⟩
      intro s hs hnot
      have hfil := hwait s hs (by simpa using hnot)
      obtain ⟨d, hd⟩ := List.exists_mem_of_ne_nil _ hfil
      obtain ⟨hd1, hd2⟩ := List.mem_filter.mp hd
      exact ⟨d, hd1, by simpa using hd2⟩
    | cons c queue' =>
      have hc : c ∈ steps := hInv.1.2 c (by simp)
      have hD : (graph c.name).getD [] = dependentsOf steps c.name := by
        rw [hgraph c hc]
        rfl
      have hchar := processDependents_char (stepMapGet steps)
        (dependentsOf steps c.name) queue' inDegree (dependentsOf_nodup steps HN c.name)
      have hstep : kahnLoop graph (stepMapGet steps) (fuel + 1) (c :: queue')
          inDegree result
          = kahnLoop graph (stepMapGet steps) fuel
              (queue' ++ (dependentsOf steps c.name).filterMap (fun m =>
                if (inDegree m).getD 0 - 1 = 0 then stepMapGet steps m else none))
              (fun x => if x ∈ dependentsOf steps c.name
                then some ((inDegree x).getD 0 - 1) else inDegree x)
              (result ++ [c]) := by
        simp only [kahnLoop, hD, hchar]
      rw [hstep] at hR
      exact ih _ _ _ (kahnInv_preserved steps HN HD c queue' inDegree result hInv)
        (by simp only [List.length_append, List.length_cons, List.length_nil]; omega)
        R hR

theorem kahnInv_init (steps : List Step) (bst : BuildSt)
    (HN : (stepNames steps).Nodup)
    (hdeg : ∀ s ∈ steps, bst.inDegree s.name = some ((depsOf s).length : Int)) :
    KahnInv steps (steps.filter (fun s => decide (depsOf s = [])))
      bst.inDegree [] := by
  have hfe : ∀ (l : List String),
      l.filter (fun d => decide (d ∉ ([] : List Step).map (fun s => s.name))) = l := by
    intro l
    apply List.filter_eq_self.mpr
    intro a _
    simp
  refine ⟨⟨?_, ?_⟩, ?_, ?_, ?_, ?_⟩
  · simp only [List.nil_append]
    exact List.Nodup.sublist (List.Sublist.map _ (List.filter_sublist steps)) HN
  · intro x hx
    simp only [List.nil_append] at hx
    exact List.mem_of_mem_filter hx
  · intro s hs
    rw [hdeg s hs, hfe]
  · intro s hs hnot
    intro hnil
    rw [hfe] at hnil
    apply hnot
    simp only [List.nil_append]
    have hsf : s ∈ steps.filter (fun s => decide (depsOf s = [])) :=
      List.mem_filter.mpr ⟨hs, decide_eq_true hnil⟩
    exact List.mem_map_of_mem (fun s => s.name) hsf
  · intro i hi
    exact absurd hi (Nat.not_lt_zero i)
  · intro x hx
    have hx0 : depsOf x = [] := by simpa using (List.mem_filter.mp hx).2
    rw [hfe, hx0]

theorem topoSort_complete (steps : List Step)
    (HN : (stepNames steps).Nodup)
    (HD : ∀ s ∈ steps, (depsOf s).Nodup)
    (HK : ∀ s ∈ steps, ∀ d ∈ depsOf s, d ∈ stepNames steps)
    (HA : ¬ HasCycle steps) :
    ∃ order, topoSort steps = .ok order := by
  obtain ⟨bst, hadd, hdeg, hdegN, hgraph, hgraphN⟩ := addEdges_char steps HN HD HK
  have hqueue := initQueue_char steps bst HN hdeg
  have hinv := kahnInv_init steps bst HN hdeg
  obtain ⟨hndR, hmemR, hrespR, hmissR⟩ := kahnLoop_main steps HN HD bst.graph hgraph
    steps.length (steps.filter (fun s => decide (depsOf s = []))) bst.inDegree []
    hinv (by simp)
    (kahnLoop bst.graph (stepMapGet steps) steps.length
      (steps.filter (fun s => decide (depsOf s = []))) bst.inDegree []) rfl
  have hall : ∀ s ∈ steps, s.name ∈
      (kahnLoop bst.graph (stepMapGet steps) steps.length
        (steps.filter (fun s => decide (depsOf s = []))) bst.inDegree []).map
        (fun s => s.name) := by
    by_contra hcon
    push_neg at hcon
    obtain ⟨s0, hs0, hs0n⟩ := hcon
    haveI : IsTrans {n // n ∈ (stepNames steps).toFinset}
        (fun a b => Relation.TransGen (depEdge steps) a.1 b.1) :=
      ⟨fun a b c hab hbc => Relation.TransGen.trans hab hbc⟩
    haveI : IsIrrefl {n // n ∈ (stepNames steps).toFinset}
        (fun a b => Relation.TransGen (depEdge steps) a.1 b.1) :=
      ⟨fun a ha => HA ⟨a.1, ha⟩⟩
    have hwf : WellFounded (fun (a b : {n // n ∈ (stepNames steps).toFinset}) =>
        Relation.TransGen (depEdge steps) a.1 b.1) :=
      Finite.wellFounded_of_trans_of_irrefl _
    have hUne : Set.Nonempty {v : {n // n ∈ (stepNames steps).toFinset} |
        v.1 ∉ (kahnLoop bst.graph (stepMapGet steps) steps.length
          (steps.filter (fun s => decide (depsOf s = []))) bst.inDegree []).map
          (fun s => s.name)} :=
      ⟨⟨s0.name, List.mem_toFinset.mpr (List.mem_map_of_mem (fun s => s.name) hs0)⟩,
        hs0n⟩
    obtain ⟨m, hmU, hmin⟩ := hwf.has_min _ hUne
    have hm_names : m.1 ∈ stepNames steps := List.mem_toFinset.mp m.2
    obtain ⟨sm, hsm, hsmn⟩ := List.mem_map.mp hm_names
    obtain ⟨d, hd, hdn⟩ := hmissR sm hsm (by rw [hsmn]; exact hmU)
    have hdnames : d ∈ stepNames steps := HK sm hsm d hd
    exact hmin ⟨d, List.mem_toFinset.mpr hdnames⟩ hdn
      (Relation.TransGen.single ⟨sm, hsm, hsmn, hd⟩)
  have hlen : (kahnLoop bst.graph (stepMapGet steps) steps.length
      (steps.filter (fun s => decide (depsOf s = []))) bst.inDegree []).length
      = steps.length := by
    have h1 := nodup_subset_length_le
      ((kahnLoop bst.graph (stepMapGet steps) steps.length
        (steps.filter (fun s => decide (depsOf s = []))) bst.inDegree []).map
        (fun s => s.name))
      (stepNames steps) hndR
      (by intro a ha
          obtain ⟨x, hx, hxn⟩ := List.mem_map.mp ha
          exact hxn ▸ List.mem_map_of_mem (fun s => s.name) (hmemR x hx))
    have h2 := nodup_subset_length_le (stepNames steps)
      ((kahnLoop bst.graph (stepMapGet steps) steps.length
        (steps.filter (fun s => decide (depsOf s = []))) bst.inDegree []).map
        (fun s => s.name))
      HN
      (by intro a ha
          obtain ⟨x, hx, hxn⟩ := List.mem_map.mp ha
          exact hxn ▸ hall x hx)
    simp only [List.length_map, stepNames] at h1 h2
    omega
  refine ⟨kahnLoop bst.graph (stepMapGet steps) steps.length
    (steps.filter (fun s => decide (depsOf s = []))) bst.inDegree [], ?_⟩
  unfold topoSort
  simp only [hadd, hqueue]
  rw [if_neg (by omega)]


theorem topoSort_cycle (steps : List Step)
    (HN : (stepNames steps).Nodup)
    (HD : ∀ s ∈ steps, (depsOf s).Nodup)
    (HK : ∀ s ∈ steps, ∀ d ∈ depsOf s, d ∈ stepNames steps)
    (HC : HasCycle steps) :
    topoSort steps = .error "Circular dependency detected in steps" := by
  obtain ⟨bst, hadd, hdeg, hdegN, hgraph, hgraphN⟩ := addEdges_char steps HN HD HK
  have hqueue := initQueue_char steps bst HN hdeg
  have hinv := kahnInv_init steps bst HN hdeg
  obtain ⟨hndR, hmemR, hrespR, hmissR⟩ := kahnLoop_main steps HN HD bst.graph hgraph
    steps.length (steps.filter (fun s => decide (depsOf s = []))) bst.inDegree []
    hinv (by simp)
    (kahnLoop bst.graph (stepMapGet steps) steps.length
      (steps.filter (fun s => decide (depsOf s = []))) bst.inDegree []) rfl
  have hne : (kahnLoop bst.graph (stepMapGet steps) steps.length
      (steps.filter (fun s => decide (depsOf s = []))) bst.inDegree []).length
      ≠ steps.length := by
    intro hlen
    have hall := nodup_subset_full
      ((kahnLoop bst.graph (stepMapGet steps) steps.length
        (steps.filter (fun s => decide (depsOf s = []))) bst.inDegree []).map
        (fun s => s.name))
      (stepNames steps) hndR HN
      (by intro a ha
          obtain ⟨x, hx, hxn⟩ := List.mem_map.mp ha
          exact hxn ▸ List.mem_map_of_mem (fun s => s.name) (hmemR x hx))
      (by
        have e1 : (stepNames steps).length = steps.length := by
          simp [stepNames]
        have e2 : ((kahnLoop bst.graph (stepMapGet steps) steps.length
            (steps.filter (fun s => decide (depsOf s = []))) bst.inDegree []).map
            (fun s => s.name)).length
            = (kahnLoop bst.graph (stepMapGet steps) steps.length
              (steps.filter (fun s => decide (depsOf s = []))) bst.inDegree []).length := by
          simp
        omega)
    have hmono : ∀ a b, depEdge steps a b →
        ((kahnLoop bst.graph (stepMapGet steps) steps.length
          (steps.filter (fun s => decide (depsOf s = []))) bst.inDegree []).map
          (fun s => s.name)).indexOf a
          < ((kahnLoop bst.graph (stepMapGet steps) steps.length
            (steps.filter (fun s => decide (depsOf s = []))) bst.inDegree []).map
            (fun s => s.name)).indexOf b := by
      rintro a b ⟨sb, hsb, hsbn, hadep⟩
      have hbn : sb.name ∈ (kahnLoop bst.graph (stepMapGet steps) steps.length
          (steps.filter (fun s => decide (depsOf s = []))) bst.inDegree []).map
          (fun s => s.name) :=
        hall sb.name (List.mem_map_of_mem (fun s => s.name) hsb)
      obtain ⟨x, hx, hxn⟩ := List.mem_map.mp hbn
      have hxe : x = sb := name_injective steps HN x sb (hmemR x hx) hsb hxn
      subst hxe
      obtain ⟨i, hig⟩ := List.mem_iff_get.mp hx
      have hdi := hrespR i.1 i.2 a (by rw [hig]; exact hadep)
      rw [List.map_take] at hdi
      have h1 := indexOf_lt_of_mem_take _ i.1 a hdi
      have h2 : ((kahnLoop bst.graph (stepMapGet steps) steps.length
          (steps.filter (fun s => decide (depsOf s = []))) bst.inDegree []).map
          (fun s => s.name)).indexOf b = i.1 := by
        have hg := indexOf_get_of_nodup _ hndR i.1 (by simpa using i.2)
        rw [List.get_map, hig, hsbn] at hg
        exact hg
      omega
    obtain ⟨a, ha⟩ := HC
    have hlt : ∀ x y, Relation.TransGen (depEdge steps) x y →
        ((kahnLoop bst.graph (stepMapGet steps) steps.length
          (steps.filter (fun s => decide (depsOf s = []))) bst.inDegree []).map
          (fun s => s.name)).indexOf x
          < ((kahnLoop bst.graph (stepMapGet steps) steps.length
            (steps.filter (fun s => decide (depsOf s = []))) bst.inDegree []).map
            (fun s => s.name)).indexOf y := by
      intro x y h
      induction h with
      | single h => exact hmono _ _ h
      | tail hxy hyz ih => exact lt_trans ih (hmono _ _ hyz)
    exact absurd (hlt a a ha) (lt_irrefl _)
  unfold topoSort
  simp only [hadd, hqueue]
  rw [if_pos hne]

/-- C2: a spec whose dependency relation (over known, unique step names with
duplicate-free `dependsOn` sets, per the data model) contains a cycle makes
`execute` report the fatal cycle error with zero steps run: no tool and no
predicate is ever invoked. -/
theorem execute_cycle_runs_nothing :
    ∀ (ctx : Ctx) (spec : Spec),
      (stepNames spec.steps).Nodup →
      (∀ s ∈ spec.steps, (depsOf s).Nodup) →
      (∀ s ∈ spec.steps, ∀ d ∈ depsOf s, d ∈ stepNames spec.steps) →
      HasCycle spec.steps →
      (execute ctx spec).result = .error "Circular dependency detected in steps"
      ∧ (execute ctx spec).state.toolCalls = 0
      ∧ (execute ctx spec).state.predCalls = 0 := by
  intro ctx spec HN HD HK HC
  have hts := topoSort_cycle spec.steps HN HD HK HC
  simp only [execute, hts]
  exact ⟨trivial, trivial, trivial⟩

/-- Witness for `execute_cycle_runs_nothing`: the two-step cycle spec. -/
theorem execute_cycle_runs_nothing_witness :
    (execute ctxDemo specCycle).result = .error "Circular dependency detected in steps"
    ∧ (execute ctxDemo specCycle).state.toolCalls = 0
    ∧ (execute ctxDemo specCycle).state.predCalls = 0 := by
  have e1 : depEdge specCycle.steps "B" "A" :=
    ⟨⟨"A", "ok", 1, [], some ["B"]⟩, List.mem_cons_self _ _, rfl, by simp [depsOf]⟩
  have e2 : depEdge specCycle.steps "A" "B" :=
    ⟨⟨"B", "ok", 1, [], some ["A"]⟩, by simp [specCycle], rfl, by simp [depsOf]⟩
  exact execute_cycle_runs_nothing ctxDemo specCycle (by decide)
    (by intro s hs; fin_cases hs <;> decide)
    (by decide)
    ⟨"A", Relation.TransGen.head e2 (Relation.TransGen.single e1)⟩

/-- C9: for every spec whose dependency relation over known, unique step
names is acyclic, `execute` terminates with a `Result` carrying one
`StepResult` per step, whatever the order of the steps in the input list. -/
theorem execute_terminates_acyclic :
    ∀ (ctx : Ctx) (spec : Spec),
      (stepNames spec.steps).Nodup →
      (∀ s ∈ spec.steps, (depsOf s).Nodup) →
      (∀ s ∈ spec.steps, ∀ d ∈ depsOf s, d ∈ stepNames spec.steps) →
      ¬ HasCycle spec.steps →
      (execute ctx spec).result.map (fun r => r.steps.length)
        = .ok spec.steps.length := by
  intro ctx spec HN HD HK HA
  obtain ⟨order, hts⟩ := topoSort_complete spec.steps HN HD HK HA
  simp only [execute, hts, Except.map]
  rw [List.length_map, runSteps_length_eq, topoSort_ok_length spec.steps order hts]

/-- Witness for `execute_terminates_acyclic`: the dependency-free
single-step spec is acyclic and yields a one-step `Result`. -/
theorem execute_terminates_acyclic_witness :
    (execute ctxDemo specSingle).result.map (fun r => r.steps.length)
      = .ok specSingle.steps.length := by
  have hnoedge : ∀ d n, ¬ depEdge specSingle.steps d n := by
    rintro d n ⟨s, hs, hn, hd⟩
    fin_cases hs
    simp [depsOf] at hd
  exact execute_terminates_acyclic ctxDemo specSingle (by decide)
    (by intro s hs; fin_cases hs <;> decide)
    (by decide)
    (by rintro ⟨a, h⟩
        cases h with
        | single h => exact hnoedge _ _ h
        | tail _ h => exact hnoedge _ _ h)


theorem iterLoop_stepData_other (ctx : Ctx) (budget : Option Budget) (step : Step)
    (predicate : Value → Check) :
    ∀ (fuel : Nat) (is : IterSt) (k : String), k ≠ step.name →
      lookupKV (outState (iterLoop ctx budget step predicate fuel is)).st.stepData k
        = lookupKV is.st.stepData k := by
  intro fuel
  induction fuel with
  | zero =>
    intro is k hk
    simp only [iterLoop, outState]
  | succ fuel ih =>
    intro is k hk
    simp only [iterLoop]
    cases hck : (predicate is.currentData).ok with
    | true => simp only [hck, if_true, outState]
    | false =>
      simp only [hck, Bool.false_eq_true, if_false]
      cases hrt : runTools ctx step.tools
          { is with st := { is.st with predCalls := is.st.predCalls + 1 } } with
      | error p =>
        obtain ⟨pe, pis⟩ := p
        simp only [outState]
        have h1 := ((runTools_preserves ctx step.tools _).2 pe pis hrt).1
        have h2 : pis.st.stepData = is.st.stepData := h1
        rw [h2]
      | ok is1 =>
        have hpres := (runTools_preserves ctx step.tools _).1 is1 hrt
        cases hcb : checkBudget budget
            { is1 with
                st := { is1.st with
                          stepData := setKey is1.st.stepData step.name is1.currentData }
                iteration := is1.iteration + 1 }.st.totalUsage 0 with
        | some e' =>
          simp only [hcb, outState]
          show lookupKV (setKey is1.st.stepData step.name is1.currentData) k
            = lookupKV is.st.stepData k
          rw [lookupKV_setKey_ne _ _ _ _ hk, hpres.1]
        | none =>
          simp only [hcb]
          cases hck2 : (predicate is1.currentData).ok with
          | true =>
            simp only [hck2, if_true, outState]
            show lookupKV (setKey is1.st.stepData step.name is1.currentData) k
              = lookupKV is.st.stepData k
            rw [lookupKV_setKey_ne _ _ _ _ hk, hpres.1]
          | false =>
            simp only [hck2, Bool.false_eq_true, if_false]
            rw [ih _ k hk]
            show lookupKV (setKey is1.st.stepData step.name is1.currentData) k
              = lookupKV is.st.stepData k
            rw [lookupKV_setKey_ne _ _ _ _ hk, hpres.1]

theorem executeStep_stepData_other :
    ∀ (ctx : Ctx) (spec : Spec) (step : Step) (st : ExecState) (run : StepRun)
      (st' : ExecState) (k : String),
      executeStep ctx spec step st = .ok (run, st') → k ≠ step.name →
      lookupKV st'.stepData k = lookupKV st.stepData k := by
  intro ctx spec step st run st' k h hk
  cases hp : ctx.predicates step.untilName with
  | none =>
    simp only [executeStep, hp] at h
    cases h
  | some predicate =>
    simp only [executeStep, hp] at h
    have hloop2 := iterLoop_stepData_other ctx spec.budget step predicate
      step.maxIter ⟨getCurrentData step st.stepData, ⟨0, 0, 0⟩, 0, st⟩ k hk
    cases hloop : iterLoop ctx spec.budget step predicate step.maxIter
        ⟨getCurrentData step st.stepData, ⟨0, 0, 0⟩, 0, st⟩ with
    | ok is =>
      rw [hloop] at hloop2
      simp only [outState] at hloop2
      have hloop3 : lookupKV is.st.stepData k = lookupKV st.stepData k := hloop2
      simp only [hloop] at h
      cases hfc : (predicate is.currentData).ok with
      | true =>
        simp only [hfc, if_true, Except.ok.injEq, Prod.mk.injEq] at h
        obtain ⟨hr, hs⟩ := h
        subst hr
        subst hs
        show lookupKV (setKey is.st.stepData step.name is.currentData) k
          = lookupKV st.stepData k
        rw [lookupKV_setKey_ne _ _ _ _ hk, hloop3]
      | false =>
        simp only [hfc, Bool.false_eq_true, if_false, Except.ok.injEq, Prod.mk.injEq] at h
        obtain ⟨hr, hs⟩ := h
        subst hr
        subst hs
        show lookupKV (setKey is.st.stepData step.name is.currentData) k
          = lookupKV st.stepData k
        rw [lookupKV_setKey_ne _ _ _ _ hk, hloop3]
    | error p =>
      obtain ⟨e, is⟩ := p
      rw [hloop] at hloop2
      simp only [outState] at hloop2
      simp only [hloop, Except.ok.injEq, Prod.mk.injEq] at h
      obtain ⟨hr, hs⟩ := h
      subst hr
      subst hs
      exact hloop2

theorem executeStepTop_stepData_other :
    ∀ (ctx : Ctx) (spec : Spec) (step : Step) (st : ExecState) (k : String),
      k ≠ step.name →
      lookupKV (executeStepTop ctx spec step st).2.stepData k
        = lookupKV st.stepData k := by
  intro ctx spec step st k hk
  unfold executeStepTop
  cases he : executeStep ctx spec step st with
  | ok p =>
    exact executeStep_stepData_other ctx spec step st p.1 p.2 k he hk
  | error e =>
    rfl

theorem executeStep_fields :
    ∀ (ctx : Ctx) (spec : Spec) (step : Step) (st : ExecState) (run : StepRun)
      (st' : ExecState),
      executeStep ctx spec step st = .ok (run, st') →
      run.result.name = step.name
      ∧ (run.result.success = true →
          lookupKV st'.stepData step.name = some run.finalData) := by
  intro ctx spec step st run st' h
  cases hp : ctx.predicates step.untilName with
  | none =>
    simp only [executeStep, hp] at h
    cases h
  | some predicate =>
    simp only [executeStep, hp] at h
    cases hloop : iterLoop ctx spec.budget step predicate step.maxIter
        ⟨getCurrentData step st.stepData, ⟨0, 0, 0⟩, 0, st⟩ with
    | ok is =>
      simp only [hloop] at h
      cases hfc : (predicate is.currentData).ok with
      | true =>
        simp only [hfc, if_true, Except.ok.injEq, Prod.mk.injEq] at h
        obtain ⟨hr, hs⟩ := h
        subst hr
        subst hs
        exact ⟨rfl, fun _ => lookupKV_setKey_self _ _ _⟩
      | false =>
        simp only [hfc, Bool.false_eq_true, if_false, Except.ok.injEq, Prod.mk.injEq] at h
        obtain ⟨hr, hs⟩ := h
        subst hr
        subst hs
        refine ⟨rfl, fun hsucc => ?_⟩
        cases hsucc
    | error p =>
      obtain ⟨e, is⟩ := p
      simp only [hloop, Except.ok.injEq, Prod.mk.injEq] at h
      obtain ⟨hr, hs⟩ := h
      subst hr
      subst hs
      refine ⟨rfl, fun hsucc => ?_⟩
      cases hsucc

theorem executeStepTop_fields :
    ∀ (ctx : Ctx) (spec : Spec) (step : Step) (st : ExecState),
      (executeStepTop ctx spec step st).1.result.name = step.name
      ∧ ((executeStepTop ctx spec step st).1.result.success = true →
          lookupKV (executeStepTop ctx spec step st).2.stepData step.name
            = some (executeStepTop ctx spec step st).1.finalData) := by
  intro ctx spec step st
  unfold executeStepTop
  cases he : executeStep ctx spec step st with
  | ok p =>
    exact executeStep_fields ctx spec step st p.1 p.2 he
  | error e =>
    refine ⟨rfl, fun hsucc => ?_⟩
    cases hsucc

theorem runSteps_stepData_go (ctx : Ctx) (spec : Spec) :
    ∀ (order : List Step) (st : ExecState) (acc : List StepRun) (k : String),
      k ∉ order.map (fun s => s.name) →
      lookupKV (order.foldl
        (fun (acc : ExecState × List StepRun) step =>
          let p := executeStepTop ctx spec step acc.1
          (p.2, acc.2 ++ [p.1]))
        (st, acc)).1.stepData k = lookupKV st.stepData k := by
  intro order
  induction order with
  | nil => intro st acc k _; rfl
  | cons s rest ih =>
    intro st acc k hk
    simp only [List.map_cons, List.mem_cons, not_or] at hk
    simp only [List.foldl_cons]
    rw [ih ((executeStepTop ctx spec s st).2)
        (acc ++ [(executeStepTop ctx spec s st).1]) k hk.2]
    exact executeStepTop_stepData_other ctx spec s st k hk.1

theorem runSteps_stepData_other (ctx : Ctx) (spec : Spec) (order : List Step)
    (st : ExecState) (k : String) (hk : k ∉ order.map (fun s => s.name)) :
    lookupKV (runSteps ctx spec order st).1.stepData k = lookupKV st.stepData k := by
  unfold runSteps
  exact runSteps_stepData_go ctx spec order st [] k hk

theorem runSteps_publishes_go (ctx : Ctx) (spec : Spec) :
    ∀ (order : List Step) (st : ExecState) (acc : List StepRun),
      (order.map (fun s => s.name)).Nodup →
      (∀ run ∈ acc, run.result.success = true →
        lookupKV st.stepData run.result.name = some run.finalData) →
      (∀ run ∈ acc, run.result.name ∉ order.map (fun s => s.name)) →
      ∀ run ∈ (order.foldl
        (fun (acc : ExecState × List StepRun) step =>
          let p := executeStepTop ctx spec step acc.1
          (p.2, acc.2 ++ [p.1]))
        (st, acc)).2,
        run.result.success = true →
        lookupKV (order.foldl
          (fun (acc : ExecState × List StepRun) step =>
            let p := executeStepTop ctx spec step acc.1
            (p.2, acc.2 ++ [p.1]))
          (st, acc)).1.stepData run.result.name = some run.finalData := by
  intro order
  induction order with
  | nil =>
    intro st acc _ hacc _ run hrun hsucc
    exact hacc run hrun hsucc
  | cons s rest ih =>
    intro st acc hnd hacc hfresh
    simp only [List.map_cons, List.nodup_cons] at hnd
    simp only [List.foldl_cons]
    refine ih (executeStepTop ctx spec s st).2
      (acc ++ [(executeStepTop ctx spec s st).1]) hnd.2 ?_ ?_
    · intro run hrun hsucc
      rcases List.mem_append.mp hrun with hin | hin
    
      · have hname : run.result.name ≠ s.name := by
          have hf := hfresh run hin
          simp only [List.map_cons, List.mem_cons, not_or] at hf
          exact hf.1
        rw [executeStepTop_stepData_other ctx spec s st run.result.name hname]
        exact hacc run hin hsucc
      · have hr : run = (executeStepTop ctx spec s st).1 := by simpa using hin
        subst hr
        have hf := executeStepTop_fields ctx spec s st
        rw [hf.1]
        exact hf.2 hsucc
    · intro run hrun
      rcases List.mem_append.mp hrun with hin | hin
      · have hf := hfresh run hin
        simp only [List.map_cons, List.mem_cons, not_or] at hf
        exact hf.2
      · have hr : run = (executeStepTop ctx spec s st).1 := by simpa using hin
        subst hr
        rw [(executeStepTop_fields ctx spec s st).1]
        exact hnd.1

theorem runSteps_publishes (ctx : Ctx) (spec : Spec) (order : List Step)
    (st : ExecState) (hnd : (order.map (fun s => s.name)).Nodup) :
    ∀ run ∈ (runSteps ctx spec order st).2, run.result.success = true →
      lookupKV (runSteps ctx spec order st).1.stepData run.result.name
        = some run.finalData := by
  unfold runSteps
  exact runSteps_publishes_go ctx spec order st [] hnd
    (by intro run h; exact absurd h (List.not_mem_nil run))
    (by intro run h; exact absurd h (List.not_mem_nil run))

theorem topoSort_ok_names (steps : List Step) (order : List Step)
    (HN : (stepNames steps).Nodup)
    (HD : ∀ s ∈ steps, (depsOf s).Nodup)
    (HK : ∀ s ∈ steps, ∀ d ∈ depsOf s, d ∈ stepNames steps)
    (h : topoSort steps = .ok order) :
    (order.map (fun s => s.name)).Nodup ∧ ∀ x ∈ order, x ∈ steps := by
  obtain ⟨bst, hadd, hdeg, hdegN, hgraph, hgraphN⟩ := addEdges_char steps HN HD HK
  have hqueue := initQueue_char steps bst HN hdeg
  unfold topoSort at h
  simp only [hadd] at h
  rw [hqueue] at h
  split_ifs at h with hc
  simp only [Except.ok.injEq] at h
  subst h
  obtain ⟨hndR, hmemR, _, _⟩ := kahnLoop_main steps HN HD bst.graph hgraph
    steps.length (steps.filter (fun s => decide (depsOf s = []))) bst.inDegree []
    (kahnInv_init steps bst HN hdeg) (by simp)
    (kahnLoop bst.graph (stepMapGet steps) steps.length
      (steps.filter (fun s => decide (depsOf s = []))) bst.inDegree []) rfl
  exact ⟨hndR, hmemR⟩

theorem getFinalData_char (runs : List StepRun) (stepData : List (String × Value))
    (hpub : ∀ run ∈ runs, run.result.success = true →
      lookupKV stepData run.result.name = some run.finalData) :
    (∀ sr, runs.reverse.find? (fun p => p.result.success) = some sr →
        getFinalData (runs.map (fun p => p.result)) stepData = some sr.finalData)
    ∧ (runs.reverse.find? (fun p => p.result.success) = none →
        getFinalData (runs.map (fun p => p.result)) stepData
          = lookupKV stepData "initial") := by
  have hconv : ((runs.map (fun p => p.result)).reverse).find? (fun r => r.success)
      = (runs.reverse.find? (fun p => p.result.success)).map (fun p => p.result) := by
    rw [← List.map_reverse, List.find?_map]
    rfl
  constructor
  · intro sr hfind
    have hsr_mem : sr ∈ runs := List.mem_reverse.mp (List.mem_of_find?_eq_some hfind)
    have hsucc : sr.result.success = true := by simpa using List.find?_some hfind
    have hp := hpub sr hsr_mem hsucc
    simp only [getFinalData, hconv, hfind, Option.map_some']
    by_cases hname : sr.result.name = "initial"
    · rw [if_neg (by simp [hname])]
      rw [← hname]
      exact hp
    · rw [if_pos hname]
      exact hp
  · intro hnone
    simp only [getFinalData, hconv, hnone, Option.map_none']

/-- Counterexample to C8 as stated: in `specNamedInitial` no step succeeds,
so the claim requires the returned data to equal the spec's initial data
`{z:7}`; but the (failing) step is named `initial`, its publication
overwrites the `initial` seed entry of `stepData`, and `getFinalData`'s
fallback reads the overwritten entry `{z:7,a:1}`. -/
theorem execute_initial_named_step_overwrites_seed :
    (execute ctxDemo specNamedInitial).result.map (fun q => (q.success, q.data))
      = Except.ok (false, some (Value.vobj [("z", Value.vnum 7), ("a", Value.vnum 1)]))
    ∧ specNamedInitial.initial = Value.vobj [("z", Value.vnum 7)]
    ∧ Value.vobj [("z", Value.vnum 7), ("a", Value.vnum 1)]
        ≠ Value.vobj [("z", Value.vnum 7)] :=
  ⟨rfl, rfl, by simp⟩

/-- C8 (amended): for a well-formed acyclic spec (distinct step names,
duplicate-free dependency lists, all dependencies known), the Result's
`data` field is the published output of the last successful step in
completion order; when no step succeeded it falls back to the spec's
initial data, provided no step is itself named `initial` (a failing step
named `initial` overwrites the seed entry, see
the counterexample). -/
theorem execute_final_data :
    ∀ (ctx : Ctx) (spec : Spec),
      (stepNames spec.steps).Nodup →
      (∀ s ∈ spec.steps, (depsOf s).Nodup) →
      (∀ s ∈ spec.steps, ∀ d ∈ depsOf s, d ∈ stepNames spec.steps) →
      ¬ HasCycle spec.steps →
      (∀ sr, (execute ctx spec).runs.reverse.find? (fun p => p.result.success)
            = some sr →
          (execute ctx spec).result.map (fun q => q.data)
            = Except.ok (some sr.finalData))
      ∧ ((execute ctx spec).runs.reverse.find? (fun p => p.result.success) = none →
          "initial" ∉ stepNames spec.steps →
          (execute ctx spec).result.map (fun q => q.data)
            = Except.ok (some spec.initial)) := by
  intro ctx spec HN HD HK HA
  obtain ⟨order, hts⟩ := topoSort_complete spec.steps HN HD HK HA
  obtain ⟨hndO, hsubO⟩ := topoSort_ok_names spec.steps order HN HD HK hts
  have hpub := runSteps_publishes ctx spec order
    ⟨[("initial", spec.initial)], ⟨0, 0, 0⟩, 0, 0⟩ hndO
  have hchar := getFinalData_char
    (runSteps ctx spec order ⟨[("initial", spec.initial)], ⟨0, 0, 0⟩, 0, 0⟩).2
    (runSteps ctx spec order ⟨[("initial", spec.initial)], ⟨0, 0, 0⟩, 0, 0⟩).1.stepData
    hpub
  have hruns : (execute ctx spec).runs
      = (runSteps ctx spec order ⟨[("initial", spec.initial)], ⟨0, 0, 0⟩, 0, 0⟩).2 := by
    simp only [execute, hts]
  have hres : (execute ctx spec).result.map (fun q => q.data)
      = Except.ok (getFinalData
          ((runSteps ctx spec order
              ⟨[("initial", spec.initial)], ⟨0, 0, 0⟩, 0, 0⟩).2.map (fun r => r.result))
          (runSteps ctx spec order
              ⟨[("initial", spec.initial)], ⟨0, 0, 0⟩, 0, 0⟩).1.stepData) := by
    simp only [execute, hts, Except.map]
  constructor
  · intro sr hfind
    rw [hruns] at hfind
    rw [hres, hchar.1 sr hfind]
  · intro hnone hinit
    rw [hruns] at hnone
    rw [hres, hchar.2 hnone]
    have hkO : "initial" ∉ order.map (fun s => s.name) := by
      intro hmem
      obtain ⟨x, hx, hxn⟩ := List.mem_map.mp hmem
      have hxs : x.name ∈ stepNames spec.steps :=
        List.mem_map_of_mem (fun s => s.name) (hsubO x hx)
      rw [hxn] at hxs
      exact hinit hxs
    rw [runSteps_stepData_other ctx spec order _ "initial" hkO]
    rfl

/-- Witness for `execute_final_data`: the single-step acyclic spec
`specSingle` succeeds at once and the final data is the successful
step's (empty-object) final data. -/
theorem execute_final_data_witness :
    (execute ctxDemo specSingle).result.map (fun q => q.data)
      = Except.ok (some (Value.vobj [])) := by
  have hnoedge : ∀ d n, ¬ depEdge specSingle.steps d n := by
    rintro d n ⟨s, hs, hn, hd⟩
    fin_cases hs
    simp [depsOf] at hd
  exact (execute_final_data ctxDemo specSingle (by decide)
    (by intro s hs; fin_cases hs <;> decide)
    (by decide)
    (by rintro ⟨a, h⟩
        cases h with
        | single h => exact hnoedge _ _ h
        | tail _ h => exact hnoedge _ _ h)).1
    ⟨⟨"A", 0, true, none, some ⟨0, 0, 0⟩⟩, Value.vobj [], Value.vobj [], false⟩
    rfl
